import Mathlib

/-!
Verification of the Keyvault encryption-and-self-describing-artifact protocol.

The development shallowly embeds the core of `src/lib/google-drive.ts` and
`src/lib/encryption.ts`: the filename metadata codec, the download-time policy
check, share-URL construction/parsing, human key generation, and the
encrypt/decrypt pipeline.  JavaScript strings are embedded as `List Char`,
byte arrays (`Uint8Array`) as `List Nat` with side conditions `< 256` where
relevant.  Platform primitives (`btoa`/`atob`, `JSON.stringify`/`JSON.parse`,
`new URL`/`URLSearchParams`, Web Crypto) are not part of the repository; they
are modelled from the specification, each with a doc comment saying so.
-/

namespace Keyvault

/-! ## Generic string utilities (JS `String.prototype.split`, `join`,
single-occurrence `replace`, substring search) -/

/-- JS `s.split(sep)` for a single-character separator: splits on every
occurrence; the empty string yields `[[]]`. -/
def splitOnChar (sep : Char) : List Char → List (List Char)
  | [] => [[]]
  | c :: rest =>
    let r := splitOnChar sep rest
    if c = sep then [] :: r
    else
      match r with
      | [] => [[c]]
      | g :: gs => (c :: g) :: gs

/-- JS `parts.join(sep)` for a single-character separator. -/
def joinChar (sep : Char) : List (List Char) → List Char
  | [] => []
  | [g] => g
  | g :: g' :: gs => g ++ sep :: joinChar sep (g' :: gs)

/-- JS `s.replace(pat, '')` with a plain-string pattern: removes the first
occurrence of `pat` (if any) and leaves the rest of the string unchanged. -/
def removeFirstSub (pat : List Char) : List Char → List Char
  | [] => []
  | c :: rest =>
    if pat.isPrefixOf (c :: rest) then (c :: rest).drop pat.length
    else c :: removeFirstSub pat rest

/-- `pat` occurs as a contiguous substring of `s`. -/
def containsSub (pat : List Char) : List Char → Bool
  | [] => pat.isEmpty
  | c :: rest => pat.isPrefixOf (c :: rest) || containsSub pat rest

/-- The suffix of `s` that follows the first occurrence of `pat`,
or `none` when `pat` does not occur. -/
def afterSub (pat : List Char) : List Char → Option (List Char)
  | [] => if pat.isEmpty then some [] else none
  | c :: rest =>
    if pat.isPrefixOf (c :: rest) then some ((c :: rest).drop pat.length)
    else afterSub pat rest

theorem splitOnChar_ne_nil (sep : Char) (s : List Char) : splitOnChar sep s ≠ [] := by
  cases s with
  | nil => simp [splitOnChar]
  | cons c rest =>
    simp only [splitOnChar]
    split
    · simp
    · match h : splitOnChar sep rest with
      | [] => simp
      | g :: gs => simp

theorem splitOnChar_length_pos (sep : Char) (s : List Char) :
    0 < (splitOnChar sep s).length :=
  List.length_pos.mpr (splitOnChar_ne_nil sep s)

/-- Splitting distributes over a separator occurrence. -/
theorem splitOnChar_append_sep (sep : Char) (a b : List Char) :
    splitOnChar sep (a ++ sep :: b) = splitOnChar sep a ++ splitOnChar sep b := by
  induction a with
  | nil => simp [splitOnChar]
  | cons c a ih =>
    by_cases hc : c = sep
    · subst hc
      simp [splitOnChar, ih]
    · match h : splitOnChar sep a with
      | [] => exact absurd h (splitOnChar_ne_nil sep a)
      | g :: gs =>
        simp [splitOnChar, if_neg hc, ih, h]

/-- A separator-free string splits into a single segment. -/
theorem splitOnChar_of_not_mem (sep : Char) (s : List Char) (h : sep ∉ s) :
    splitOnChar sep s = [s] := by
  induction s with
  | nil => simp [splitOnChar]
  | cons c rest ih =>
    simp only [List.mem_cons, not_or] at h
    have hc : ¬c = sep := fun hh => h.1 hh.symm
    simp [splitOnChar, if_neg hc, ih h.2]

/-- Join inverts split. -/
theorem joinChar_splitOnChar (sep : Char) (s : List Char) :
    joinChar sep (splitOnChar sep s) = s := by
  induction s with
  | nil => simp [splitOnChar, joinChar]
  | cons c rest ih =>
    by_cases hc : c = sep
    · subst hc
      match h : splitOnChar c rest with
      | [] => exact absurd h (splitOnChar_ne_nil c rest)
      | g :: gs =>
        rw [h] at ih
        simp [splitOnChar, joinChar, h, ih]
    · match h : splitOnChar sep rest with
      | [] => exact absurd h (splitOnChar_ne_nil sep rest)
      | g :: gs =>
        rw [h] at ih
        match gs with
        | [] => simp [splitOnChar, if_neg hc, joinChar, h, joinChar] at ih ⊢; simpa using ih
        | g' :: gs' => simp [splitOnChar, if_neg hc, joinChar, h] at ih ⊢; simpa using ih

theorem splitOnChar_length_eq_count (sep : Char) (s : List Char) :
    (splitOnChar sep s).length = s.count sep + 1 := by
  induction s with
  | nil => simp [splitOnChar]
  | cons c rest ih =>
    simp only [splitOnChar]
    by_cases hc : c = sep
    · subst hc
      simp [List.count_cons, ih]
    · simp only [if_neg hc]
      match h : splitOnChar sep rest with
      | [] => exact absurd h (splitOnChar_ne_nil sep rest)
      | g :: gs =>
        rw [h] at ih
        simp only [List.length_cons] at ih ⊢
        rw [List.count_cons]
        simp [ih, if_neg (fun hh : c = sep => hc hh)]

/-! ## Base64 (model of the platform `btoa`/`atob` primitives) -/

/-- The standard base64 alphabet, as used by `btoa`/`atob`
(`A-Z`, `a-z`, `0-9`, `+`, `/`; padding `=`).  Note this is NOT the
url-safe alphabet (which replaces `+`/`/` by `-`/`_`). -/
def b64Alphabet : List Char :=
  "ABCDEFGHIJKLMNOPQRSTUVWXYZabcdefghijklmnopqrstuvwxyz0123456789+/".toList

/-- The base64 digit for a 6-bit value. -/
def b64Char (n : Nat) : Char := b64Alphabet.getD n 'A'

/-- The 6-bit value of a base64 digit, `none` for characters outside the
alphabet. -/
def b64CharVal (c : Char) : Option Nat :=
  b64Alphabet.indexOf? c

/-- Standard base64 encoding of a byte sequence, processing three bytes into
four digits, with `=` padding — the encoding `btoa` applies to a binary
string.  Modelled from the spec (platform primitive). -/
def b64encode : List Nat → List Char
  | [] => []
  | [b1] => [b64Char (b1 / 4), b64Char (b1 % 4 * 16), '=', '=']
  | [b1, b2] => [b64Char (b1 / 4), b64Char (b1 % 4 * 16 + b2 / 16), b64Char (b2 % 16 * 4), '=']
  | b1 :: b2 :: b3 :: rest =>
    b64Char (b1 / 4) :: b64Char (b1 % 4 * 16 + b2 / 16) ::
    b64Char (b2 % 16 * 4 + b3 / 64) :: b64Char (b3 % 64) :: b64encode rest

/-- Rebuild bytes from a list of 6-bit values (the core of base64 decoding);
leftover bits of a trailing group of 2 or 3 digits are discarded. -/
def b64chunksToBytes : List Nat → List Nat
  | c1 :: c2 :: c3 :: c4 :: rest =>
    (c1 * 4 + c2 / 16) :: (c2 % 16 * 16 + c3 / 4) :: (c3 % 4 * 64 + c4) :: b64chunksToBytes rest
  | [c1, c2] => [c1 * 4 + c2 / 16]
  | [c1, c2, c3] => [c1 * 4 + c2 / 16, c2 % 16 * 16 + c3 / 4]
  | _ => []

/-- Drop up to two leading `=` characters. -/
def b64dropEq : List Char → List Char
  | [] => []
  | [a] => if a = '=' then [] else [a]
  | a :: b :: rest =>
    if a = '=' then (if b = '=' then rest else b :: rest) else a :: b :: rest

/-- Drop up to two trailing `=` characters. -/
def b64stripPad (s : List Char) : List Char :=
  (b64dropEq s.reverse).reverse

/-- Base64 decoding as performed by the platform `atob` primitive.
Modelled from the spec: padding-tolerant standard base64 (the forgiving
decode minus whitespace stripping): strip up to two trailing `=` when the
length is a multiple of four, reject a leftover length of 1 mod 4, reject
characters outside the alphabet. -/
def atob (s : List Char) : Option (List Nat) :=
  let t := if s.length % 4 = 0 then b64stripPad s else s
  if t.length % 4 = 1 then none
  else (t.mapM b64CharVal).map b64chunksToBytes

/-- The 6-bit groups of a byte sequence (the data digits of its base64
encoding). -/
def b64groups : List Nat → List Nat
  | [] => []
  | [b1] => [b1 / 4, b1 % 4 * 16]
  | [b1, b2] => [b1 / 4, b1 % 4 * 16 + b2 / 16, b2 % 16 * 4]
  | b1 :: b2 :: b3 :: rest =>
    b1 / 4 :: (b1 % 4 * 16 + b2 / 16) :: (b2 % 16 * 4 + b3 / 64) :: b3 % 64 :: b64groups rest

/-- Number of `=` padding characters of the base64 encoding. -/
def b64padLen : List Nat → Nat
  | [] => 0
  | [_] => 2
  | [_, _] => 1
  | _ :: _ :: _ :: rest => b64padLen rest

theorem b64encode_eq_groups (bytes : List Nat) :
    b64encode bytes = (b64groups bytes).map b64Char ++ List.replicate (b64padLen bytes) '=' := by
  match bytes with
  | [] => rfl
  | [b1] => rfl
  | [b1, b2] => rfl
  | b1 :: b2 :: b3 :: rest =>
    simp [b64encode, b64groups, b64padLen, b64encode_eq_groups rest]

theorem b64groups_lt (bytes : List Nat) (h : ∀ b ∈ bytes, b < 256) :
    ∀ v ∈ b64groups bytes, v < 64 := by
  match bytes with
  | [] => simp [b64groups]
  | [b1] =>
    have h1 := h b1 (by simp)
    simp only [b64groups, List.mem_cons, List.mem_singleton, List.not_mem_nil]
    intro v hv
    rcases hv with rfl | rfl | hv
    · omega
    · omega
    · simp at hv
  | [b1, b2] =>
    have h1 := h b1 (by simp)
    have h2 := h b2 (by simp)
    intro v hv
    simp only [b64groups, List.mem_cons, List.not_mem_nil] at hv
    rcases hv with rfl | rfl | rfl | hv
    · omega
    · omega
    · omega
    · simp at hv
  | b1 :: b2 :: b3 :: rest =>
    have h1 := h b1 (by simp)
    have h2 := h b2 (by simp)
    have h3 := h b3 (by simp)
    have ih := b64groups_lt rest (fun b hb => h b (by simp [hb]))
    intro v hv
    simp only [b64groups, List.mem_cons] at hv
    rcases hv with rfl | rfl | rfl | rfl | hv
    · omega
    · omega
    · omega
    · omega
    · exact ih v hv

theorem b64chunksToBytes_groups (bytes : List Nat) (h : ∀ b ∈ bytes, b < 256) :
    b64chunksToBytes (b64groups bytes) = bytes := by
  match bytes with
  | [] => rfl
  | [b1] =>
    have h1 := h b1 (by simp)
    simp only [b64groups, b64chunksToBytes]
    congr 1
    omega
  | [b1, b2] =>
    have h1 := h b1 (by simp)
    have h2 := h b2 (by simp)
    simp only [b64groups, b64chunksToBytes]
    congr 1
    · omega
    · congr 1
      omega
  | b1 :: b2 :: b3 :: rest =>
    have h1 := h b1 (by simp)
    have h2 := h b2 (by simp)
    have h3 := h b3 (by simp)
    have ih := b64chunksToBytes_groups rest (fun b hb => h b (by simp [hb]))
    simp only [b64groups, b64chunksToBytes, ih]
    congr 1
    · omega
    · congr 1
      · omega
      · congr 1
        omega

theorem b64groups_length (bytes : List Nat) :
    ((b64groups bytes).length + b64padLen bytes) % 4 = 0 ∧ (b64groups bytes).length % 4 ≠ 1 := by
  match bytes with
  | [] => simp [b64groups, b64padLen]
  | [b1] => simp [b64groups, b64padLen]
  | [b1, b2] => simp [b64groups, b64padLen]
  | b1 :: b2 :: b3 :: rest =>
    have ih := b64groups_length rest
    simp only [b64groups, b64padLen, List.length_cons]
    omega

theorem b64padLen_le (bytes : List Nat) : b64padLen bytes ≤ 2 := by
  match bytes with
  | [] => simp [b64padLen]
  | [b1] => simp [b64padLen]
  | [b1, b2] => simp [b64padLen]
  | _ :: _ :: _ :: rest => exact b64padLen_le rest

theorem b64CharVal_b64Char : ∀ n < 64, b64CharVal (b64Char n) = some n := by decide

theorem b64Char_mem_or (n : Nat) : b64Char n ∈ b64Alphabet ∨ b64Char n = 'A' := by
  unfold b64Char
  by_cases h : n < b64Alphabet.length
  · left
    rw [List.getD_eq_getElem _ _ h]
    exact List.getElem_mem h
  · right
    rw [List.getD_eq_default _ _ (by omega)]

theorem b64Char_not_special (n : Nat) : b64Char n ∉ (['=', '.', '_'] : List Char) := by
  rcases b64Char_mem_or n with h | h
  · exact (by decide : ∀ c ∈ b64Alphabet, c ∉ (['=', '.', '_'] : List Char)) _ h
  · rw [h]; decide

theorem b64dropEq_no_eq (l : List Char) (h : ∀ c ∈ l, c ≠ '=') : b64dropEq l = l := by
  match l with
  | [] => rfl
  | [a] => simp [b64dropEq, h a (by simp)]
  | a :: b :: rest => simp [b64dropEq, h a (by simp)]

theorem b64stripPad_append (xs : List Char) (k : Nat) (hx : ∀ c ∈ xs, c ≠ '=')
    (hk : k ≤ 2) : b64stripPad (xs ++ List.replicate k '=') = xs := by
  unfold b64stripPad
  rw [List.reverse_append, List.reverse_replicate]
  have hxrev : ∀ c ∈ xs.reverse, c ≠ '=' := by
    intro c hc
    exact hx c (List.mem_reverse.mp hc)
  interval_cases k
  · simp only [List.replicate, List.nil_append]
    rw [b64dropEq_no_eq _ hxrev, List.reverse_reverse]
  · simp only [List.replicate, List.singleton_append]
    match hxs : xs.reverse with
    | [] =>
      have hx0 : xs = [] := by simpa using congrArg List.reverse hxs
      simp [hx0, b64dropEq]
    | c :: r =>
      have hc : c ≠ '=' := hxrev c (by rw [hxs]; simp)
      simp only [b64dropEq, if_pos rfl, if_neg hc]
      rw [← hxs]
      simp
  · simp only [List.replicate, List.cons_append, List.nil_append]
    simp [b64dropEq]

theorem mapM_b64CharVal_map (vals : List Nat) (h : ∀ v ∈ vals, v < 64) :
    (vals.map b64Char).mapM b64CharVal = some vals := by
  induction vals with
  | nil => rfl
  | cons v vs ih =>
    have hv := h v (by simp)
    simp only [List.map_cons, List.mapM_cons, b64CharVal_b64Char v hv,
      ih (fun w hw => h w (by simp [hw]))]
    rfl

/-- `atob` inverts `b64encode` on byte sequences. -/
theorem atob_b64encode (bytes : List Nat) (h : ∀ b ∈ bytes, b < 256) :
    atob (b64encode bytes) = some bytes := by
  have hlen := b64groups_length bytes
  have hchars : ∀ c ∈ (b64groups bytes).map b64Char, c ≠ '=' := by
    intro c hc
    simp only [List.mem_map] at hc
    obtain ⟨n, _, rfl⟩ := hc
    have := b64Char_not_special n
    simp at this
    exact this.1
  rw [atob, b64encode_eq_groups]
  have hL : ((b64groups bytes).map b64Char ++ List.replicate (b64padLen bytes) '=').length % 4 = 0 := by
    simp only [List.length_append, List.length_map, List.length_replicate]
    exact hlen.1
  rw [if_pos hL, b64stripPad_append _ _ hchars (b64padLen_le bytes)]
  have hL2 : ¬((b64groups bytes).map b64Char).length % 4 = 1 := by
    simpa using hlen.2
  rw [if_neg hL2, mapM_b64CharVal_map _ (b64groups_lt bytes h)]
  simp [b64chunksToBytes_groups bytes h]

/-! ## JSON (model of the platform `JSON.stringify`/`JSON.parse` primitives)

The parser is modelled from the spec for the shapes the policy codec can
produce: scalars (null, booleans, integer numbers, strings), flat arrays of
scalars, and one level of object.  Fractional/exponent number syntax,
`\u` escapes and nested containers are outside the model. -/

/-- A parsed JSON value.  `decodeMetadataFromFilename` returns the raw
`JSON.parse` result without shape validation, so the embedding keeps the
generic value type. -/
inductive JVal where
  | jnull : JVal
  | jbool : Bool → JVal
  | jnum : Int → JVal
  | jstr : List Char → JVal
  | jarr : List JVal → JVal
  | jobj : List (List Char × JVal) → JVal

/-- The decimal digit character for `d % 10`. -/
def digitChar10 (d : Nat) : Char := "0123456789".toList.getD d '0'

/-- Decimal digits, most significant first, with explicit recursion fuel
(any fuel above the number of digits is enough). -/
def natDigitsAux : Nat → Nat → List Char
  | 0, _ => []
  | fuel + 1, n =>
    if n < 10 then [digitChar10 n]
    else natDigitsAux fuel (n / 10) ++ [digitChar10 (n % 10)]

/-- Decimal digits of a natural number, most significant first. -/
def natDigits (n : Nat) : List Char := natDigitsAux (n + 1) n

/-- Numeric value of a digit character. -/
def digitVal (c : Char) : Nat := c.toNat - 48

/-- Numeric value of a digit string. -/
def digitsVal (l : List Char) : Nat := l.foldl (fun a c => a * 10 + digitVal c) 0

/-- Decimal rendering of an integer, as `JSON.stringify` prints an integral
JS number. -/
def intChars (i : Int) : List Char :=
  if i < 0 then '-' :: natDigits (-i).toNat else natDigits i.toNat

/-- `JSON.stringify` escaping of one string character (quote and backslash;
control characters do not occur in the policy strings this model covers). -/
def escapeJChar (c : Char) : List Char :=
  if c = '"' then ['\\', '"'] else if c = '\\' then ['\\', '\\'] else [c]

/-- `JSON.stringify` rendering of a string literal. -/
def jstrChars (s : List Char) : List Char :=
  '"' :: (s.map escapeJChar).flatten ++ ['"']

mutual

/-- Compact `JSON.stringify` rendering of a value. -/
def jvalChars : JVal → List Char
  | .jnull => "null".toList
  | .jbool true => "true".toList
  | .jbool false => "false".toList
  | .jnum i => intChars i
  | .jstr s => jstrChars s
  | .jarr xs => '[' :: jvalListChars xs ++ [']']
  | .jobj fs => '{' :: jfieldsChars fs ++ ['}']

/-- Comma-joined array elements. -/
def jvalListChars : List JVal → List Char
  | [] => []
  | [v] => jvalChars v
  | v :: v' :: vs => jvalChars v ++ ',' :: jvalListChars (v' :: vs)

/-- Comma-joined object fields. -/
def jfieldsChars : List (List Char × JVal) → List Char
  | [] => []
  | [(k, v)] => jstrChars k ++ ':' :: jvalChars v
  | (k, v) :: f :: fs => jstrChars k ++ ':' :: jvalChars v ++ ',' :: jfieldsChars (f :: fs)

end

/-- The `Policies` interface of `google-drive.ts`: all fields optional. -/
structure Policies where
  expiresAt : Option Int := none
  maxDownloads : Option Int := none
  selfDestruct : Option Bool := none
  allowedCountries : Option (List (List Char)) := none
deriving DecidableEq

/-- The JSON object fields of a `Policies` value, in interface declaration
order (the insertion order `JSON.stringify` serializes). -/
def policiesFields (p : Policies) : List (List Char × JVal) :=
  (match p.expiresAt with
   | some t => [("expiresAt".toList, JVal.jnum t)]
   | none => []) ++
  (match p.maxDownloads with
   | some m => [("maxDownloads".toList, JVal.jnum m)]
   | none => []) ++
  (match p.selfDestruct with
   | some b => [("selfDestruct".toList, JVal.jbool b)]
   | none => []) ++
  (match p.allowedCountries with
   | some cs => [("allowedCountries".toList, JVal.jarr (cs.map JVal.jstr))]
   | none => [])

/-- The JSON value a `Policies` object denotes. -/
def policiesToJVal (p : Policies) : JVal := .jobj (policiesFields p)

/-- `JSON.stringify(policies)`.  Modelled from the spec (platform
primitive): compact serialization of the defined fields in insertion
order. -/
def stringifyPolicies (p : Policies) : List Char := jvalChars (policiesToJVal p)

/-- JSON insignificant whitespace. -/
def isJsonWs (c : Char) : Bool := c = ' ' || c = '\t' || c = '\n' || c = '\r'

/-- Skip insignificant whitespace. -/
def skipWs (s : List Char) : List Char := s.dropWhile isJsonWs

/-- Unescape one character following a backslash (`\u` sequences are outside
the model). -/
def jUnescape (e : Char) : Option Char :=
  if e = '"' then some '"'
  else if e = '\\' then some '\\'
  else if e = '/' then some '/'
  else if e = 'n' then some '\n'
  else if e = 't' then some '\t'
  else if e = 'r' then some '\r'
  else if e = 'b' then some (Char.ofNat 8)
  else if e = 'f' then some (Char.ofNat 12)
  else none

/-- Parse the body of a JSON string literal (after the opening quote), up to
and including the closing quote. -/
def parseJStringBody : List Char → Option (List Char × List Char)
  | [] => none
  | c :: rest =>
    if c = '"' then some ([], rest)
    else if c = '\\' then
      match rest with
      | [] => none
      | e :: rest' =>
        match jUnescape e with
        | none => none
        | some u => (parseJStringBody rest').map (fun p => (u :: p.1, p.2))
    else if c.toNat < 32 then none
    else (parseJStringBody rest).map (fun p => (c :: p.1, p.2))

/-- `true` for `'0' :: d :: _` — the leading-zero forms JSON rejects. -/
def hasLeadingZero : List Char → Bool
  | c :: _ :: _ => c == '0'
  | _ => false

/-- Parse an unsigned JSON integer. -/
def parseNatNum (s : List Char) : Option (Nat × List Char) :=
  let ds := s.takeWhile Char.isDigit
  if ds = [] then none
  else if hasLeadingZero ds then none
  else some (digitsVal ds, s.dropWhile Char.isDigit)

/-- Parse a JSON integer number (fractions and exponents are outside the
model). -/
def parseNum (s : List Char) : Option (JVal × List Char) :=
  match s with
  | [] => none
  | c :: rest =>
    if c = '-' then (parseNatNum rest).map (fun p => (JVal.jnum (-(p.1 : Int)), p.2))
    else (parseNatNum (c :: rest)).map (fun p => (JVal.jnum (p.1 : Int), p.2))

/-- Parse a scalar JSON value: `null`, `true`, `false`, a number or a
string. -/
def parseScalar (s : List Char) : Option (JVal × List Char) :=
  if "null".toList.isPrefixOf s then some (.jnull, s.drop 4)
  else if "true".toList.isPrefixOf s then some (.jbool true, s.drop 4)
  else if "false".toList.isPrefixOf s then some (.jbool false, s.drop 5)
  else
    match s with
    | [] => none
    | c :: rest =>
      if c = '"' then (parseJStringBody rest).map (fun p => (JVal.jstr p.1, p.2))
      else if c = '-' || c.isDigit then parseNum s
      else none

/-- Parse a non-empty comma-separated list of scalar array items, up to and
including the closing bracket; the fuel bounds the number of items (the
caller passes the input length, which always suffices). -/
def parseArrItems : Nat → List Char → Option (List JVal × List Char)
  | 0, _ => none
  | fuel + 1, s =>
    match parseScalar (skipWs s) with
    | none => none
    | some (v, r) =>
      match skipWs r with
      | [] => none
      | c :: r' =>
        if c = ']' then some ([v], r')
        else if c = ',' then
          match parseArrItems fuel r' with
          | none => none
          | some (vs, r'') => some (v :: vs, r'')
        else none

/-- Parse an array value, positioned after the opening bracket. -/
def parseArrAfterBracket (s : List Char) : Option (JVal × List Char) :=
  match skipWs s with
  | [] => none
  | c :: r =>
    if c = ']' then some (.jarr [], r)
    else (parseArrItems s.length s).map (fun p => (JVal.jarr p.1, p.2))

/-- Parse a scalar or a flat array (an object field value). -/
def parseOneVal (s : List Char) : Option (JVal × List Char) :=
  match skipWs s with
  | [] => none
  | c :: rest =>
    if c = '[' then parseArrAfterBracket rest else parseScalar (c :: rest)

/-- Parse a non-empty comma-separated list of object fields, up to and
including the closing brace; the fuel bounds the number of fields (the
caller passes the input length, which always suffices). -/
def parseObjFields : Nat → List Char → Option (List (List Char × JVal) × List Char)
  | 0, _ => none
  | fuel + 1, s =>
    match skipWs s with
    | [] => none
    | c :: rest =>
      if c = '"' then
        match parseJStringBody rest with
        | none => none
        | some (key, r1) =>
          match skipWs r1 with
          | [] => none
          | c2 :: r2 =>
            if c2 = ':' then
              match parseOneVal r2 with
              | none => none
              | some (v, r3) =>
                match skipWs r3 with
                | [] => none
                | c4 :: r4 =>
                  if c4 = '}' then some ([(key, v)], r4)
                  else if c4 = ',' then
                    match parseObjFields fuel r4 with
                    | none => none
                    | some (fs, r5) => some ((key, v) :: fs, r5)
                  else none
            else none
      else none

/-- Parse an object value, positioned after the opening brace. -/
def parseObjAfterBrace (s : List Char) : Option (JVal × List Char) :=
  match skipWs s with
  | [] => none
  | c :: r =>
    if c = '}' then some (.jobj [], r)
    else (parseObjFields s.length s).map (fun p => (JVal.jobj p.1, p.2))

/-- `JSON.parse`.  Modelled from the spec (platform primitive), restricted
to the shapes the policy codec produces: scalars, flat arrays of scalars,
and one level of object.  Requires the whole input to be consumed. -/
def jsonParse (s : List Char) : Option JVal :=
  let res :=
    match skipWs s with
    | [] => none
    | c :: rest =>
      if c = '{' then parseObjAfterBrace rest else parseOneVal s
  match res with
  | none => none
  | some (v, r) => if skipWs r = [] then some v else none

/-! ## Validity predicates for the codec round trip -/

/-- A string character that needs no `JSON.stringify` escaping. -/
def plainJChar (c : Char) : Bool :=
  c != '"' && c != '\\' && decide (32 ≤ c.toNat)

/-- A policy-string character: plain for JSON and Latin-1 (so `btoa` accepts
it).  The spec's `allowedCountries` region codes satisfy this. -/
def policyStrChar (c : Char) : Bool := plainJChar c && decide (c.toNat < 256)

/-- A scalar JSON value whose rendering the model parser recovers. -/
def scalarOK : JVal → Prop
  | .jnull => True
  | .jbool _ => True
  | .jnum _ => True
  | .jstr s => ∀ c ∈ s, plainJChar c = true
  | .jarr _ => False
  | .jobj _ => False

/-- An object-field value: a scalar or a flat array of scalars. -/
def valOK (v : JVal) : Prop :=
  scalarOK v ∨ ∃ xs, v = .jarr xs ∧ ∀ x ∈ xs, scalarOK x

/-- Well-formed object fields: plain keys and `valOK` values. -/
def objOK (fields : List (List Char × JVal)) : Prop :=
  ∀ f ∈ fields, (∀ c ∈ f.1, plainJChar c = true) ∧ valOK f.2

/-- A valid `Policies` value per the spec's data model: `allowedCountries`
holds region codes (plain Latin-1 strings). -/
def validPolicies (p : Policies) : Prop :=
  ∀ cs, p.allowedCountries = some cs → ∀ s ∈ cs, ∀ c ∈ s, policyStrChar c = true

/-! ## Encryption (`src/lib/encryption.ts`)

`crypto.subtle` (PBKDF2 key derivation and AES-GCM) is a platform
primitive.  It is modelled from the spec as an ideal AEAD: `deriveKey` is
deterministic and collision-free on `(secret, salt)`; sealing binds the
authentication tag to the key, the nonce and the sealed payload; opening
verifies the tag before returning any plaintext. -/

/-- Modelled from the spec: the PBKDF2-SHA-256 (100 000 iterations) derived
AES-256-GCM key.  Derivation is deterministic and collision-free, so the key
is represented by its derivation inputs. -/
structure DerivedKey where
  password : List Char
  salt : List Nat
deriving DecidableEq

/-- Modelled from the spec: an AES-GCM sealed message.  `body` is the
encrypted payload (byte-for-byte the plaintext in this functional model) and
the remaining fields are the authentication tag, which AES-GCM binds to the
key, the nonce and the payload. -/
structure AesGcmSealed where
  body : List Nat
  tagKey : DerivedKey
  tagNonce : List Nat
  tagBody : List Nat
deriving DecidableEq

/-- Modelled from the spec: `deriveKey` of `encryption.ts` (PBKDF2). -/
def deriveKey (password : List Char) (salt : List Nat) : DerivedKey :=
  ⟨password, salt⟩

/-- Modelled from the spec: `crypto.subtle.encrypt` with AES-GCM. -/
def aesGcmEncrypt (key : DerivedKey) (iv : List Nat) (data : List Nat) : AesGcmSealed :=
  ⟨data, key, iv, data⟩

/-- Modelled from the spec: `crypto.subtle.decrypt` with AES-GCM — the tag
is verified against the supplied key and nonce before any plaintext is
returned. -/
def aesGcmDecrypt (key : DerivedKey) (iv : List Nat) (c : AesGcmSealed) : Option (List Nat) :=
  if c.tagKey = key ∧ c.tagNonce = iv ∧ c.tagBody = c.body then some c.body else none

/-- `encryptFile(file, userKey)` of `encryption.ts`, with the randomly
generated 16-byte salt and 12-byte IV passed explicitly. -/
def encryptFile (fileData : List Nat) (userKey : List Char) (salt iv : List Nat) :
    AesGcmSealed × List Nat × List Nat :=
  (aesGcmEncrypt (deriveKey userKey salt) iv fileData, salt, iv)

/-- `decryptFile(encryptedData, userKey, salt, iv)` of `encryption.ts`;
`none` is the thrown `Decryption failed. Invalid key or corrupted data.`
(the unified tamper-or-wrong-key error). -/
def decryptFile (encryptedData : AesGcmSealed) (userKey : List Char) (salt iv : List Nat) :
    Option (List Nat) :=
  aesGcmDecrypt (deriveKey userKey salt) iv encryptedData

/-- A single bit flip in the stored ciphertext (encrypted payload followed by
the 16-byte authentication tag) lands in exactly one of the two regions:
it changes the payload and leaves the tag intact, or vice versa. -/
def singleComponentTamper (c c' : AesGcmSealed) : Prop :=
  (c'.body ≠ c.body ∧ c'.tagKey = c.tagKey ∧ c'.tagNonce = c.tagNonce ∧ c'.tagBody = c.tagBody) ∨
  (c'.body = c.body ∧ ¬(c'.tagKey = c.tagKey ∧ c'.tagNonce = c.tagNonce ∧ c'.tagBody = c.tagBody))

/-- JS `String.fromCharCode` applied elementwise (building the binary string
from a `Uint8Array`). -/
def stringFromCharCodes (bytes : List Nat) : List Char :=
  bytes.map Char.ofNat

/-- The platform `btoa`: standard base64 of a binary string; throws
(`none`) when a character is above `U+00FF`.  Modelled from the spec. -/
def btoaJS (s : List Char) : Option (List Char) :=
  if s.all (fun c => decide (c.toNat < 256)) then some (b64encode (s.map Char.toNat))
  else none

/-- `uint8ArrayToBase64` of `encryption.ts`: build the binary string
character by character, then `btoa` (total on `Uint8Array` input). -/
def uint8ArrayToBase64 (arr : List Nat) : List Char :=
  (btoaJS (stringFromCharCodes arr)).getD []

/-- `base64ToUint8Array` of `encryption.ts`: `atob`, then char codes;
`none` models the exception on invalid base64. -/
def base64ToUint8Array (s : List Char) : Option (List Nat) := atob s

/-! ## Filename metadata codec (`src/lib/google-drive.ts`) -/

/-- The `.encrypted` marker. -/
def ENC : List Char := ".encrypted".toList

/-- The decoded result of `decodeMetadataFromFilename`: the original name,
the salt and IV still in their base64 string form, and the raw parsed
policy JSON (the source casts it to `Policies` without validation). -/
structure DecodedMeta where
  originalName : List Char
  salt : List Char
  iv : List Char
  policies : JVal

/-- `encodeMetadataInFilename(originalName, salt, iv, policies)`:
`` `${originalName}_${saltB64}_${ivB64}_${policiesB64}.encrypted` `` with
`saltB64`/`ivB64` from `uint8ArrayToBase64` and
`policiesB64 = btoa(JSON.stringify(policies))`; `none` models the `btoa`
exception on non-Latin-1 policy strings. -/
def encodeMetadataInFilename (originalName : List Char) (salt iv : List Nat)
    (policies : Policies) : Option (List Char) :=
  let saltB64 := uint8ArrayToBase64 salt
  let ivB64 := uint8ArrayToBase64 iv
  match btoaJS (stringifyPolicies policies) with
  | none => none
  | some policiesB64 =>
    some (originalName ++ '_' :: saltB64 ++ '_' :: ivB64 ++ '_' :: policiesB64 ++ ENC)

/-- `decodeMetadataFromFilename(filename)`: remove the FIRST occurrence of
`.encrypted` (JS `replace` with a string pattern), split on `_`, require at
least 4 segments, pop the last three as policies/iv/salt, rejoin the rest as
the original name, and base64+JSON-decode the policy segment; `null`
(`none`) on failure. -/
def decodeMetadataFromFilename (filename : List Char) : Option DecodedMeta :=
  let withoutExt := removeFirstSub ENC filename
  let parts := splitOnChar '_' withoutExt
  if parts.length < 4 then none
  else
    match parts.reverse with
    | policiesB64 :: ivB64 :: saltB64 :: restRev =>
      let originalName := joinChar '_' restRev.reverse
      match atob policiesB64 with
      | none => none
      | some bytes =>
        match jsonParse (stringFromCharCodes bytes) with
        | none => none
        | some policies => some ⟨originalName, saltB64, ivB64, policies⟩
    | _ => none

/-! ## Download-time policy check (`downloadFileFromDrive`, step 3) -/

/-- Policy denial reasons named by the spec. -/
inductive PolicyDenial where
  | expired : PolicyDenial
  | downloadLimitExceeded : PolicyDenial
deriving DecidableEq

/-- The client-side policy check of `downloadFileFromDrive`:
`if (fileInfo.policies.expiresAt && Date.now() > fileInfo.policies.expiresAt)
throw new Error('File has expired')`.  JS truthiness makes `expiresAt === 0`
skip the check.  No other policy field is checked: the function contains no
`maxDownloads` (or any download-count) test. -/
def downloadPolicyCheck (policies : Policies) (now : Int) : Option PolicyDenial :=
  match policies.expiresAt with
  | some t => if t ≠ 0 ∧ now > t then some .expired else none
  | none => none

/-! ## Share URL construction and parsing -/

/-- Step 6 of `uploadFileToDrive`:
`` `${window.location.origin}/f/${driveFileId}#key=${humanKey}` ``. -/
def buildShareUrl (origin driveFileId humanKey : List Char) : List Char :=
  origin ++ "/f/".toList ++ driveFileId ++ "#key=".toList ++ humanKey

/-- Modelled from the spec: the fragment (`url.hash` without `#`) of a URL —
everything after the first `#`. -/
def urlFragmentOf (url : List Char) : List Char :=
  (url.dropWhile (fun c => c != '#')).drop 1

/-- An uppercase hexadecimal digit. -/
def hexDigitUpper (n : Nat) : Char :=
  if n < 10 then Char.ofNat (48 + n) else Char.ofNat (55 + n)

/-- The UTF-8 bytes of a character. -/
def utf8Bytes (c : Char) : List Nat :=
  let n := c.toNat
  if n < 0x80 then [n]
  else if n < 0x800 then [0xC0 + n / 0x40, 0x80 + n % 0x40]
  else if n < 0x10000 then
    [0xE0 + n / 0x1000, 0x80 + (n / 0x40) % 0x40, 0x80 + n % 0x40]
  else
    [0xF0 + n / 0x40000, 0x80 + (n / 0x1000) % 0x40, 0x80 + (n / 0x40) % 0x40,
      0x80 + n % 0x40]

/-- `%XX` for one byte. -/
def percentEncodeByte (b : Nat) : List Char :=
  ['%', hexDigitUpper (b / 16), hexDigitUpper (b % 16)]

/-- The URL standard's path percent-encode set: C0 controls and non-ASCII,
space, `"`, `<`, `>`, backtick, `{`, `}` (`?` and `#` never reach the path —
they delimit it; a stray `%` is copied as-is). -/
def pathEncodeSet (c : Char) : Bool :=
  c.toNat ≤ 0x1f || c.toNat ≥ 0x7f || c = ' ' || c = '"' || c = '<' || c = '>' ||
    c = '`' || c = '{' || c = '}'

/-- Percent-encode the characters of the path percent-encode set (UTF-8
bytes, uppercase hex), leaving all other characters — including `%` — as
they are, as the URL constructor serializes a path. -/
def pathPercentEncode : List Char → List Char
  | [] => []
  | c :: rest =>
    (if pathEncodeSet c then
      (utf8Bytes c).foldr (fun b acc => percentEncodeByte b ++ acc) []
     else [c]) ++ pathPercentEncode rest

/-- Modelled from the spec: `new URL(url).pathname` — after the first
`://`, from the first `/` or `\` (special URLs treat `\` as `/`) up to the
query or fragment, with `\` normalized to `/` and the path percent-encode
set percent-encoded, as the URL constructor serializes the path; `none`
models the exception on a scheme-less string. -/
def urlPathnameOf (url : List Char) : Option (List Char) :=
  match afterSub "://".toList (url.takeWhile (fun c => c != '#')) with
  | none => none
  | some hostPath =>
    some (pathPercentEncode
      (((hostPath.dropWhile (fun c => c != '/' && c != '\\')).takeWhile
          (fun c => c != '?')).map (fun c => if c = '\\' then '/' else c)))

/-- Key of a `k=v`-shaped pair. -/
def pairKey (pair : List Char) : List Char := pair.takeWhile (fun c => c != '=')

/-- Value of a `k=v`-shaped pair (everything after the first `=`; empty when
there is no `=`). -/
def pairValue (pair : List Char) : List Char :=
  (pair.dropWhile (fun c => c != '=')).drop 1

/-- The value of a hexadecimal digit, `none` otherwise. -/
def hexVal (c : Char) : Option Nat :=
  if '0' ≤ c ∧ c ≤ '9' then some (c.toNat - 48)
  else if 'A' ≤ c ∧ c ≤ 'F' then some (c.toNat - 55)
  else if 'a' ≤ c ∧ c ≤ 'f' then some (c.toNat - 87)
  else none

/-- `application/x-www-form-urlencoded` decoding (one step per unit of
fuel; the caller passes the input length, which suffices since every step
consumes at least one character). -/
def formUrlDecodeAux : Nat → List Char → List Char
  | 0, s => s
  | _ + 1, [] => []
  | fuel + 1, c :: rest =>
    if c = '+' then ' ' :: formUrlDecodeAux fuel rest
    else if c = '%' then
      match rest with
      | a :: b :: rest' =>
        match hexVal a, hexVal b with
        | some ha, some hb => Char.ofNat (16 * ha + hb) :: formUrlDecodeAux fuel rest'
        | _, _ => '%' :: formUrlDecodeAux fuel rest
      | _ => '%' :: formUrlDecodeAux fuel rest
    else c :: formUrlDecodeAux fuel rest

/-- `application/x-www-form-urlencoded` decoding as `URLSearchParams`
performs it on each name and value: `+` becomes a space, `%XX` becomes the
byte `XX`, and an invalid `%` sequence is left as it is. -/
def formUrlDecode (s : List Char) : List Char := formUrlDecodeAux s.length s

/-- Modelled from the spec: `new URLSearchParams(fragment).get(key)` as
form-urlencoded key/value pairs — split on `&`, split each pair at its
first `=`, decode each name and value (`+` to space, percent-escapes),
return the first decoded value whose decoded key matches. -/
def queryGet (frag key : List Char) : Option (List Char) :=
  ((splitOnChar '&' frag).find? (fun pair => formUrlDecode (pairKey pair) == key)).map
    (fun pair => formUrlDecode (pairValue pair))

/-- `parseShareUrl(url)`: last segment of the pathname as the Drive file id,
`key` entry of the fragment as the secret; `null` (`none`) when the URL does
not parse, the last path segment is empty, or the `key` entry is missing or
empty. -/
def parseShareUrl (url : List Char) : Option (List Char × List Char) :=
  match urlPathnameOf url with
  | none => none
  | some pathname =>
    let pathParts := splitOnChar '/' pathname
    let driveFileId := pathParts.getLast?.getD []
    match queryGet (urlFragmentOf url) "key".toList with
    | none => none
    | some key => if driveFileId = [] then none else if key = [] then none else some (driveFileId, key)

/-! ## Human-readable key generation -/

def ADJECTIVES : List (List Char) :=
  ["iron".toList, "swift".toList, "bright".toList, "silver".toList,
   "golden".toList, "brave".toList, "wise".toList, "calm".toList,
   "bold".toList, "dark".toList, "light".toList, "fierce".toList,
   "gentle".toList, "mighty".toList, "quiet".toList, "strong".toList]

def NOUNS : List (List Char) :=
  ["sparrow".toList, "tiger".toList, "eagle".toList, "wolf".toList,
   "dragon".toList, "phoenix".toList, "lion".toList, "bear".toList,
   "falcon".toList, "hawk".toList, "raven".toList, "owl".toList,
   "fox".toList, "lynx".toList, "panther".toList, "leopard".toList]

def WORDS : List (List Char) :=
  ["echo".toList, "flame".toList, "storm".toList, "wave".toList,
   "wind".toList, "shadow".toList, "light".toList, "stone".toList,
   "thunder".toList, "frost".toList, "blaze".toList, "mist".toList,
   "dawn".toList, "dusk".toList, "star".toList, "moon".toList]

/-- `generateHumanKey()`: `` `${adj}-${noun}-${word}` `` with each component
drawn by `Math.floor(Math.random() * 16)`; the three random draws are the
explicit `Fin 16` arguments. -/
def generateHumanKey (i j k : Fin 16) : List Char :=
  ADJECTIVES.getD i [] ++ '-' :: NOUNS.getD j [] ++ '-' :: WORDS.getD k []

/-! ## Spec-side definitions (used to state refinement claims) -/

/-- Url-safe base64 (RFC 4648 §5): `+` ↦ `-`, `/` ↦ `_`.  Follows the
spec's words for the claimed `base64url` wire format. -/
def b64urlEncode (bytes : List Nat) : List Char :=
  (b64encode bytes).map (fun c => if c = '+' then '-' else if c = '/' then '_' else c)

/-- The claimed wire format with url-safe base64 segments:
`<originalName>_<base64url(salt)>_<base64url(nonce)>_<base64url(json(policy))>.encrypted`. -/
def specEncodedNameUrlSafe (originalName : List Char) (salt iv : List Nat)
    (policies : Policies) : List Char :=
  originalName ++ '_' :: b64urlEncode salt ++ '_' :: b64urlEncode iv ++ '_' ::
    b64urlEncode ((stringifyPolicies policies).map Char.toNat) ++ ENC

/-- The actual wire format with standard base64 segments. -/
def specEncodedNameStd (originalName : List Char) (salt iv : List Nat)
    (policies : Policies) : List Char :=
  originalName ++ '_' :: b64encode salt ++ '_' :: b64encode iv ++ '_' ::
    b64encode ((stringifyPolicies policies).map Char.toNat) ++ ENC

/-- Remove a trailing `.encrypted` suffix (and only a suffix). -/
def removeEncSuffix (s : List Char) : List Char :=
  if ENC.isSuffixOf s then s.take (s.length - ENC.length) else s

/-- The claim's description of the decoder: strip the `.encrypted` SUFFIX,
split on `_`, take the last three segments as salt, iv and policy in that
order, rejoin everything before them as the original name. -/
def decodeViaSuffixRule (filename : List Char) : Option DecodedMeta :=
  let withoutExt := removeEncSuffix filename
  let parts := splitOnChar '_' withoutExt
  let n := parts.length
  if n < 4 then none
  else
    let originalName := joinChar '_' (parts.take (n - 3))
    let saltB64 := parts.getD (n - 3) []
    let ivB64 := parts.getD (n - 2) []
    let policiesB64 := parts.getD (n - 1) []
    match atob policiesB64 with
    | none => none
    | some bytes =>
      match jsonParse (stringFromCharCodes bytes) with
      | none => none
      | some policies => some ⟨originalName, saltB64, ivB64, policies⟩

/-- The decoder description amended to what the code does: remove the FIRST
occurrence of `.encrypted` (not necessarily a suffix), then apply the
last-three-segments rule. -/
def decodeLastThreeRule (filename : List Char) : Option DecodedMeta :=
  let withoutExt := removeFirstSub ENC filename
  let parts := splitOnChar '_' withoutExt
  let n := parts.length
  if n < 4 then none
  else
    let originalName := joinChar '_' (parts.take (n - 3))
    let saltB64 := parts.getD (n - 3) []
    let ivB64 := parts.getD (n - 2) []
    let policiesB64 := parts.getD (n - 1) []
    match atob policiesB64 with
    | none => none
    | some bytes =>
      match jsonParse (stringFromCharCodes bytes) with
      | none => none
      | some policies => some ⟨originalName, saltB64, ivB64, policies⟩

/-- Does the policy segment of a filename decode (base64 then JSON)? -/
def policySegDecodes (seg : List Char) : Bool :=
  match atob seg with
  | none => false
  | some bytes => (jsonParse (stringFromCharCodes bytes)).isSome

/-- A head condition under which greedy digit scanning stops exactly at
`rest`. -/
def nonDigitHead (rest : List Char) : Prop :=
  ∀ c, rest.head? = some c → c.isDigit = false

/-- The possible first characters of a rendered scalar. -/
def scalarHeadChar (c : Char) : Prop :=
  c = 'n' ∨ c = 't' ∨ c = 'f' ∨ c = '-' ∨ c.isDigit = true ∨ c = '"'

/-! ## Parser correctness on serializer output -/

theorem takeWhile_append_all (p : Char → Bool) (l r : List Char)
    (h : ∀ c ∈ l, p c = true) : (l ++ r).takeWhile p = l ++ r.takeWhile p := by
  induction l with
  | nil => simp
  | cons c cs ih =>
    simp [List.takeWhile_cons, h c (by simp), ih (fun d hd => h d (by simp [hd]))]

theorem dropWhile_append_all (p : Char → Bool) (l r : List Char)
    (h : ∀ c ∈ l, p c = true) : (l ++ r).dropWhile p = r.dropWhile p := by
  induction l with
  | nil => simp
  | cons c cs ih =>
    simp only [List.cons_append, List.dropWhile_cons, h c (by simp)]
    exact ih (fun d hd => h d (by simp [hd]))

theorem takeWhile_eq_nil_of_head (p : Char → Bool) (r : List Char)
    (h : ∀ c, r.head? = some c → p c = false) : r.takeWhile p = [] := by
  cases r with
  | nil => rfl
  | cons c cs => simp [List.takeWhile_cons, h c rfl]

theorem dropWhile_eq_self_of_head (p : Char → Bool) (r : List Char)
    (h : ∀ c, r.head? = some c → p c = false) : r.dropWhile p = r := by
  cases r with
  | nil => rfl
  | cons c cs => simp [List.dropWhile_cons, h c rfl]

theorem isPrefixOf_append_self (p t : List Char) : p.isPrefixOf (p ++ t) = true := by
  induction p with
  | nil => simp [List.isPrefixOf]
  | cons a as ih => simp [List.isPrefixOf, ih]

theorem isPrefixOf_cons_ne (a b : Char) (as bs : List Char) (h : a ≠ b) :
    (a :: as).isPrefixOf (b :: bs) = false := by
  simp [List.isPrefixOf, h]

theorem digitVal_digitChar10 : ∀ m < 10, digitVal (digitChar10 m) = m := by decide

theorem digitChar10_isDigit : ∀ m < 10, (digitChar10 m).isDigit = true := by decide

theorem digitsVal_append_digit (l : List Char) (c : Char) :
    digitsVal (l ++ [c]) = digitsVal l * 10 + digitVal c := by
  simp [digitsVal, List.foldl_append]

theorem digitsVal_natDigitsAux (fuel : Nat) :
    ∀ n, n < fuel → digitsVal (natDigitsAux fuel n) = n := by
  induction fuel with
  | zero => intro n h; omega
  | succ fuel ih =>
    intro n h
    rw [natDigitsAux]
    split
    · next h10 =>
      simp [digitsVal, digitVal_digitChar10 n h10]
    · next h10 =>
      rw [digitsVal_append_digit, ih (n / 10) (by omega),
        digitVal_digitChar10 (n % 10) (by omega)]
      omega

theorem digitsVal_natDigits (n : Nat) : digitsVal (natDigits n) = n :=
  digitsVal_natDigitsAux (n + 1) n (by omega)

theorem natDigitsAux_digits (fuel : Nat) :
    ∀ n, ∀ c ∈ natDigitsAux fuel n, c.isDigit = true := by
  induction fuel with
  | zero => intro n c hc; simp [natDigitsAux] at hc
  | succ fuel ih =>
    intro n c hc
    rw [natDigitsAux] at hc
    split at hc
    · next h10 =>
      rw [List.mem_singleton] at hc
      subst hc
      exact digitChar10_isDigit n h10
    · next h10 =>
      rw [List.mem_append] at hc
      rcases hc with hc | hc
      · exact ih (n / 10) c hc
      · rw [List.mem_singleton] at hc
        subst hc
        exact digitChar10_isDigit (n % 10) (by omega)

theorem natDigits_digits (n : Nat) : ∀ c ∈ natDigits n, c.isDigit = true :=
  natDigitsAux_digits (n + 1) n

theorem natDigits_ne_nil (n : Nat) : natDigits n ≠ [] := by
  rw [natDigits, natDigitsAux]
  split
  · simp
  · simp

theorem natDigitsAux_ne_nil (fuel n : Nat) (h : n < fuel) : natDigitsAux fuel n ≠ [] := by
  cases fuel with
  | zero => omega
  | succ fuel =>
    rw [natDigitsAux]
    split
    · simp
    · simp

theorem natDigitsAux_head_ne_zero (fuel : Nat) :
    ∀ n, n < fuel → 1 ≤ n → (natDigitsAux fuel n).head? ≠ some '0' := by
  induction fuel with
  | zero => intro n h; omega
  | succ fuel ih =>
    intro n h h1
    rw [natDigitsAux]
    split
    · next h10 =>
      have hd : ∀ m, 1 ≤ m → m < 10 → digitChar10 m ≠ '0' := by decide
      simpa using hd n h1 h10
    · next h10 =>
      have hlt : n / 10 < fuel := by omega
      have h1b : 1 ≤ n / 10 := by omega
      have := ih (n / 10) hlt h1b
      match hc : natDigitsAux fuel (n / 10) with
      | [] => exact absurd hc (natDigitsAux_ne_nil fuel (n / 10) hlt)
      | c :: cs =>
        rw [hc] at this
        simpa using this

theorem natDigits_head_ne_zero (n : Nat) (h : 1 ≤ n) : (natDigits n).head? ≠ some '0' :=
  natDigitsAux_head_ne_zero (n + 1) n (by omega) h

theorem hasLeadingZero_natDigits (n : Nat) : hasLeadingZero (natDigits n) = false := by
  by_cases hn : n = 0
  · subst hn
    rw [natDigits]
    rfl
  · have hh := natDigits_head_ne_zero n (by omega)
    match hd : natDigits n with
    | [] => rfl
    | [c] => rfl
    | c :: c2 :: cs =>
      rw [hd] at hh
      simp only [List.head?_cons, ne_eq, Option.some.injEq] at hh
      simp [hasLeadingZero, hh]

theorem parseNatNum_natDigits (n : Nat) (rest : List Char) (hrest : nonDigitHead rest) :
    parseNatNum (natDigits n ++ rest) = some (n, rest) := by
  unfold parseNatNum
  rw [takeWhile_append_all _ _ _ (natDigits_digits n),
    takeWhile_eq_nil_of_head _ _ hrest, List.append_nil,
    dropWhile_append_all _ _ _ (natDigits_digits n),
    dropWhile_eq_self_of_head _ _ hrest]
  rw [if_neg (natDigits_ne_nil n), hasLeadingZero_natDigits n]
  simp [digitsVal_natDigits n]

theorem intChars_head (i : Int) :
    ∃ c cs, intChars i = c :: cs ∧ (c = '-' ∨ c.isDigit = true) := by
  unfold intChars
  split
  · exact ⟨'-', _, rfl, Or.inl rfl⟩
  · obtain ⟨c, cs, hc⟩ := List.exists_cons_of_ne_nil (natDigits_ne_nil i.toNat)
    refine ⟨c, cs, hc, Or.inr ?_⟩
    exact natDigits_digits i.toNat c (by rw [hc]; simp)

theorem parseNum_intChars (i : Int) (rest : List Char) (hrest : nonDigitHead rest) :
    parseNum (intChars i ++ rest) = some (.jnum i, rest) := by
  by_cases hi : i < 0
  · rw [intChars, if_pos hi]
    simp only [List.cons_append, parseNum, if_pos rfl]
    rw [parseNatNum_natDigits _ _ hrest]
    simp only [Option.map_some']
    have he : (-(((-i).toNat : Nat) : Int)) = i := by omega
    rw [he]
    simp
  · rw [intChars, if_neg hi]
    obtain ⟨c, cs, hc⟩ := List.exists_cons_of_ne_nil (natDigits_ne_nil i.toNat)
    have hcd : c.isDigit = true := natDigits_digits i.toNat c (by rw [hc]; simp)
    have hcm : ¬c = '-' := by
      intro he
      subst he
      exact absurd hcd (by decide)
    rw [hc, List.cons_append, parseNum, if_neg hcm, ← List.cons_append, ← hc,
      parseNatNum_natDigits _ _ hrest]
    simp only [Option.map_some']
    have he : ((i.toNat : Nat) : Int) = i := by omega
    rw [he]

theorem plainJChar_spec (c : Char) (h : plainJChar c = true) :
    c ≠ '"' ∧ c ≠ '\\' ∧ 32 ≤ c.toNat := by
  simp only [plainJChar, Bool.and_eq_true, bne_iff_ne, ne_eq, decide_eq_true_eq] at h
  exact ⟨h.1.1, h.1.2, h.2⟩

theorem flatten_escape_plain (s : List Char) (h : ∀ c ∈ s, plainJChar c = true) :
    (s.map escapeJChar).flatten = s := by
  induction s with
  | nil => rfl
  | cons c cs ih =>
    obtain ⟨h1, h2, _⟩ := plainJChar_spec c (h c (by simp))
    simp only [List.map_cons, List.flatten_cons, escapeJChar, if_neg h1, if_neg h2]
    rw [ih (fun d hd => h d (by simp [hd]))]
    rfl

theorem parseJStringBody_plain (s rest : List Char) (h : ∀ c ∈ s, plainJChar c = true) :
    parseJStringBody (s ++ '"' :: rest) = some (s, rest) := by
  induction s with
  | nil =>
    show parseJStringBody ('"' :: rest) = _
    unfold parseJStringBody
    simp
  | cons c cs ih =>
    obtain ⟨h1, h2, h3⟩ := plainJChar_spec c (h c (by simp))
    show parseJStringBody (c :: (cs ++ '"' :: rest)) = _
    unfold parseJStringBody
    rw [if_neg h1, if_neg h2, if_neg (by omega : ¬c.toNat < 32)]
    rw [ih (fun d hd => h d (by simp [hd]))]
    rfl

theorem skipWs_cons (c : Char) (l : List Char) (h : isJsonWs c = false) :
    skipWs (c :: l) = c :: l := by
  simp [skipWs, List.dropWhile_cons, h]

theorem numHead_ne (c : Char) (h : c = '-' ∨ c.isDigit = true) (d : Char)
    (hd : d.isDigit = false) (hd2 : d ≠ '-') : c ≠ d := by
  rcases h with rfl | h
  · exact fun he => hd2 he.symm
  · intro he
    subst he
    rw [h] at hd
    cases hd

theorem isDigit_not_ws (c : Char) (h : c.isDigit = true) : isJsonWs c = false := by
  simp only [isJsonWs, Bool.or_eq_false_iff, decide_eq_false_iff_not]
  refine ⟨⟨⟨?_, ?_⟩, ?_⟩, ?_⟩ <;> · intro he; subst he; revert h; decide

theorem parseScalar_cons (c : Char) (t : List Char) :
    parseScalar (c :: t) =
      (if "null".toList.isPrefixOf (c :: t) then some (JVal.jnull, (c :: t).drop 4)
       else if "true".toList.isPrefixOf (c :: t) then some (JVal.jbool true, (c :: t).drop 4)
       else if "false".toList.isPrefixOf (c :: t) then some (JVal.jbool false, (c :: t).drop 5)
       else if c = '"' then (parseJStringBody t).map (fun p => (JVal.jstr p.1, p.2))
       else if c = '-' || c.isDigit then parseNum (c :: t)
       else none) := rfl

theorem isPrefixOf_word_ne (w : List Char) (b : Char) (bs : List Char) (a : Char)
    (as : List Char) (hw : w = a :: as) (hab : a ≠ b) :
    ¬(w.isPrefixOf (b :: bs) = true) := by
  rw [hw, isPrefixOf_cons_ne _ _ _ _ hab]
  exact Bool.false_ne_true

theorem parseScalar_print (v : JVal) (hv : scalarOK v) (rest : List Char)
    (hrest : nonDigitHead rest) :
    parseScalar (jvalChars v ++ rest) = some (v, rest) := by
  cases v with
  | jnull =>
    show parseScalar ("null".toList ++ rest) = _
    rw [show ("null".toList ++ rest) = 'n' :: ("ull".toList ++ rest) from rfl, parseScalar_cons]
    rw [show ('n' :: ("ull".toList ++ rest)) = "null".toList ++ rest from rfl]
    rw [if_pos (isPrefixOf_append_self _ _)]
    rw [show (4 : Nat) = ("null".toList).length from rfl, List.drop_left]
  | jbool b =>
    cases b with
    | true =>
      show parseScalar ("true".toList ++ rest) = _
      rw [show ("true".toList ++ rest) = 't' :: ("rue".toList ++ rest) from rfl, parseScalar_cons]
      rw [if_neg (isPrefixOf_word_ne "null".toList 't' ("rue".toList ++ rest) 'n' "ull".toList rfl (by decide))]
      rw [show ('t' :: ("rue".toList ++ rest)) = "true".toList ++ rest from rfl]
      rw [if_pos (isPrefixOf_append_self _ _)]
      rw [show (4 : Nat) = ("true".toList).length from rfl, List.drop_left]
    | false =>
      show parseScalar ("false".toList ++ rest) = _
      rw [show ("false".toList ++ rest) = 'f' :: ("alse".toList ++ rest) from rfl, parseScalar_cons]
      rw [if_neg (isPrefixOf_word_ne "null".toList 'f' ("alse".toList ++ rest) 'n' "ull".toList rfl (by decide))]
      rw [if_neg (isPrefixOf_word_ne "true".toList 'f' ("alse".toList ++ rest) 't' "rue".toList rfl (by decide))]
      rw [show ('f' :: ("alse".toList ++ rest)) = "false".toList ++ rest from rfl]
      rw [if_pos (isPrefixOf_append_self _ _)]
      rw [show (5 : Nat) = ("false".toList).length from rfl, List.drop_left]
  | jnum i =>
    obtain ⟨c, cs, hc, hor⟩ := intChars_head i
    show parseScalar (intChars i ++ rest) = _
    rw [hc, List.cons_append, parseScalar_cons]
    rw [if_neg (isPrefixOf_word_ne "null".toList c (cs ++ rest) 'n' "ull".toList rfl
      (Ne.symm (numHead_ne c hor 'n' (by decide) (by decide))))]
    rw [if_neg (isPrefixOf_word_ne "true".toList c (cs ++ rest) 't' "rue".toList rfl
      (Ne.symm (numHead_ne c hor 't' (by decide) (by decide))))]
    rw [if_neg (isPrefixOf_word_ne "false".toList c (cs ++ rest) 'f' "alse".toList rfl
      (Ne.symm (numHead_ne c hor 'f' (by decide) (by decide))))]
    rw [if_neg (numHead_ne c hor '"' (by decide) (by decide))]
    have hcond : (c = '-' || c.isDigit) = true := by
      rcases hor with rfl | h
      · simp
      · simp [h]
    rw [if_pos hcond, ← List.cons_append, ← hc, parseNum_intChars i rest hrest]
  | jstr s =>
    show parseScalar (jstrChars s ++ rest) = _
    rw [jstrChars, flatten_escape_plain s hv]
    rw [show (('"' :: s ++ ['"']) ++ rest) = '"' :: (s ++ '"' :: rest) by simp]
    rw [parseScalar_cons]
    rw [if_neg (isPrefixOf_word_ne "null".toList '"' (s ++ '"' :: rest) 'n' "ull".toList rfl (by decide))]
    rw [if_neg (isPrefixOf_word_ne "true".toList '"' (s ++ '"' :: rest) 't' "rue".toList rfl (by decide))]
    rw [if_neg (isPrefixOf_word_ne "false".toList '"' (s ++ '"' :: rest) 'f' "alse".toList rfl (by decide))]
    rw [if_pos rfl, parseJStringBody_plain s rest hv]
    rfl
  | jarr xs => exact absurd hv (by simp [scalarOK])
  | jobj fs => exact absurd hv (by simp [scalarOK])

theorem scalarChars_head (v : JVal) (hv : scalarOK v) :
    ∃ c cs, jvalChars v = c :: cs ∧ scalarHeadChar c := by
  cases v with
  | jnull => exact ⟨'n', _, rfl, Or.inl rfl⟩
  | jbool b => cases b with
    | true => exact ⟨'t', _, rfl, Or.inr (Or.inl rfl)⟩
    | false => exact ⟨'f', _, rfl, Or.inr (Or.inr (Or.inl rfl))⟩
  | jnum i =>
    obtain ⟨c, cs, hc, hor⟩ := intChars_head i
    refine ⟨c, cs, hc, ?_⟩
    rcases hor with rfl | h
    · exact Or.inr (Or.inr (Or.inr (Or.inl rfl)))
    · exact Or.inr (Or.inr (Or.inr (Or.inr (Or.inl h))))
  | jstr s => exact ⟨'"', _, rfl, Or.inr (Or.inr (Or.inr (Or.inr (Or.inr rfl))))⟩
  | jarr xs => exact absurd hv (by simp [scalarOK])
  | jobj fs => exact absurd hv (by simp [scalarOK])

theorem scalarHead_props (c : Char) (h : scalarHeadChar c) :
    isJsonWs c = false ∧ c ≠ '[' ∧ c ≠ '{' ∧ c ≠ ']' ∧ c ≠ '}' := by
  rcases h with rfl | rfl | rfl | rfl | h | rfl
  · exact ⟨by decide, by decide, by decide, by decide, by decide⟩
  · exact ⟨by decide, by decide, by decide, by decide, by decide⟩
  · exact ⟨by decide, by decide, by decide, by decide, by decide⟩
  · exact ⟨by decide, by decide, by decide, by decide, by decide⟩
  · refine ⟨isDigit_not_ws c h, ?_, ?_, ?_, ?_⟩ <;>
      · intro he; subst he; revert h; decide
  · exact ⟨by decide, by decide, by decide, by decide, by decide⟩

theorem skipWs_scalar (v : JVal) (hv : scalarOK v) (t : List Char) :
    skipWs (jvalChars v ++ t) = jvalChars v ++ t := by
  obtain ⟨c, cs, hc, hp⟩ := scalarChars_head v hv
  rw [hc, List.cons_append, skipWs_cons _ _ (scalarHead_props c hp).1]

theorem parseArrItems_print (xs : List JVal) (x : JVal) (hx : scalarOK x)
    (h : ∀ y ∈ xs, scalarOK y) (rest : List Char) (fuel : Nat) (hfuel : xs.length < fuel) :
    parseArrItems fuel (jvalListChars (x :: xs) ++ ']' :: rest) = some (x :: xs, rest) := by
  induction xs generalizing x fuel with
  | nil =>
    obtain ⟨f, rfl⟩ : ∃ f, fuel = f + 1 := ⟨fuel - 1, by omega⟩
    rw [parseArrItems]
    rw [show jvalListChars [x] = jvalChars x from rfl]
    rw [skipWs_scalar x hx, parseScalar_print x hx _ (by intro c hc; cases hc; decide)]
    simp only [skipWs_cons ']' rest (by decide)]
    simp
  | cons y ys ih =>
    obtain ⟨f, rfl⟩ : ∃ f, fuel = f + 1 := ⟨fuel - 1, by omega⟩
    rw [parseArrItems]
    rw [show jvalListChars (x :: y :: ys) = jvalChars x ++ ',' :: jvalListChars (y :: ys) from rfl]
    rw [List.append_assoc, List.cons_append]
    rw [skipWs_scalar x hx, parseScalar_print x hx _ (by intro c hc; cases hc; decide)]
    simp only [skipWs_cons ',' _ (by decide)]
    rw [ih y (h y (by simp)) (fun z hz => h z (by simp [hz])) f
      (by simp only [List.length_cons] at hfuel; omega)]
    simp

theorem scalarChars_ne_nil (v : JVal) (hv : scalarOK v) : jvalChars v ≠ [] := by
  obtain ⟨c, cs, hc, _⟩ := scalarChars_head v hv
  rw [hc]
  simp

theorem jvalListChars_length (xs : List JVal) (h : ∀ x ∈ xs, scalarOK x) :
    xs.length ≤ (jvalListChars xs).length := by
  match xs with
  | [] => simp [jvalListChars]
  | [v] =>
    have := scalarChars_ne_nil v (h v (by simp))
    rw [show jvalListChars [v] = jvalChars v from rfl]
    have : 0 < (jvalChars v).length := List.length_pos.mpr this
    simp
    omega
  | v :: v' :: vs =>
    have h1 : 0 < (jvalChars v).length := List.length_pos.mpr (scalarChars_ne_nil v (h v (by simp)))
    have h2 := jvalListChars_length (v' :: vs) (fun y hy => h y (by simp [hy]))
    rw [show jvalListChars (v :: v' :: vs) = jvalChars v ++ ',' :: jvalListChars (v' :: vs)
      from rfl]
    simp only [List.length_append, List.length_cons] at h2 ⊢
    omega

theorem jvalListChars_cons_head (x : JVal) (ys : List JVal) (hx : scalarOK x) :
    ∃ c cs, jvalListChars (x :: ys) = c :: cs ∧ scalarHeadChar c := by
  obtain ⟨c, cs, hc, hp⟩ := scalarChars_head x hx
  cases ys with
  | nil => exact ⟨c, cs, by rw [show jvalListChars [x] = jvalChars x from rfl, hc], hp⟩
  | cons y ys =>
    refine ⟨c, cs ++ ',' :: jvalListChars (y :: ys), ?_, hp⟩
    rw [show jvalListChars (x :: y :: ys) = jvalChars x ++ ',' :: jvalListChars (y :: ys) from rfl,
      hc, List.cons_append]

theorem parseOneVal_print (v : JVal) (hv : valOK v) (rest : List Char)
    (hrest : nonDigitHead rest) :
    parseOneVal (jvalChars v ++ rest) = some (v, rest) := by
  rcases hv with hv | ⟨xs, rfl, hxs⟩
  · obtain ⟨c, cs, hc, hp⟩ := scalarChars_head v hv
    rw [parseOneVal, skipWs_scalar v hv, hc, List.cons_append]
    simp only
    rw [if_neg (scalarHead_props c hp).2.1, ← List.cons_append, ← hc,
      parseScalar_print v hv rest hrest]
  · have hsplit : jvalChars (.jarr xs) ++ rest = '[' :: (jvalListChars xs ++ ']' :: rest) := by
      rw [show jvalChars (.jarr xs) = ('[' :: jvalListChars xs) ++ [']'] from rfl]
      simp
    rw [parseOneVal, hsplit, skipWs_cons '[' _ (by decide)]
    simp only
    rw [if_pos trivial, parseArrAfterBracket]
    cases xs with
    | nil =>
      rw [show jvalListChars [] = [] from rfl, List.nil_append,
        skipWs_cons ']' rest (by decide)]
      simp
    | cons x ys =>
      obtain ⟨c, cs, hc, hp⟩ := jvalListChars_cons_head x ys (hxs x (by simp))
      have hflen : ys.length < (jvalListChars (x :: ys) ++ ']' :: rest).length := by
        have := jvalListChars_length (x :: ys) hxs
        simp only [List.length_cons] at this
        simp only [List.length_append, List.length_cons]
        omega
      rw [hc, List.cons_append, skipWs_cons c _ (scalarHead_props c hp).1]
      simp only
      rw [if_neg (scalarHead_props c hp).2.2.2.1, ← List.cons_append, ← hc,
        parseArrItems_print ys x (hxs x (by simp)) (fun z hz => hxs z (by simp [hz])) rest
          _ hflen]
      rfl

theorem jstrChars_append (k t : List Char) (hk : ∀ c ∈ k, plainJChar c = true) :
    jstrChars k ++ t = '"' :: (k ++ '"' :: t) := by
  rw [jstrChars, flatten_escape_plain k hk]
  simp

theorem jstrChars_length (k : List Char) : 2 ≤ (jstrChars k).length := by
  rw [jstrChars]
  simp

theorem jfieldsChars_length (fields : List (List Char × JVal)) :
    fields.length ≤ (jfieldsChars fields).length := by
  match fields with
  | [] => simp [jfieldsChars]
  | [(k, v)] =>
    have := jstrChars_length k
    rw [show jfieldsChars [(k, v)] = jstrChars k ++ ':' :: jvalChars v from rfl]
    simp only [List.length_append, List.length_cons, List.length_nil]
    omega
  | (k, v) :: f :: fs =>
    have h1 := jstrChars_length k
    have h2 := jfieldsChars_length (f :: fs)
    rw [show jfieldsChars ((k, v) :: f :: fs) =
      jstrChars k ++ ':' :: jvalChars v ++ ',' :: jfieldsChars (f :: fs) from rfl]
    simp only [List.length_append, List.length_cons] at h2 ⊢
    omega

theorem parseObjFields_print (k : List Char) (v : JVal) (fs : List (List Char × JVal))
    (hobj : objOK ((k, v) :: fs)) (rest : List Char) (fuel : Nat) (hfuel : fs.length < fuel) :
    parseObjFields fuel (jfieldsChars ((k, v) :: fs) ++ '}' :: rest) = some ((k, v) :: fs, rest) := by
  induction fs generalizing k v fuel with
  | nil =>
    obtain ⟨fl, rfl⟩ : ∃ fl, fuel = fl + 1 := ⟨fuel - 1, by omega⟩
    have hk := (hobj (k, v) (by simp)).1
    have hv := (hobj (k, v) (by simp)).2
    have hs : jfieldsChars [(k, v)] ++ '}' :: rest =
        '"' :: (k ++ '"' :: (':' :: (jvalChars v ++ '}' :: rest))) := by
      rw [show jfieldsChars [(k, v)] = jstrChars k ++ ':' :: jvalChars v from rfl]
      rw [List.append_assoc, jstrChars_append k _ hk]
      simp
    rw [hs, parseObjFields, skipWs_cons '"' _ (by decide)]
    simp only
    rw [if_pos trivial, parseJStringBody_plain k _ hk]
    simp only
    rw [skipWs_cons ':' _ (by decide)]
    simp only
    rw [if_pos trivial, parseOneVal_print v hv _ (by intro c hc; cases hc; decide)]
    simp only
    rw [skipWs_cons '}' _ (by decide)]
    simp
  | cons f fs' ih =>
    obtain ⟨k2, v2⟩ := f
    obtain ⟨fl, rfl⟩ : ∃ fl, fuel = fl + 1 := ⟨fuel - 1, by omega⟩
    have hk := (hobj (k, v) (by simp)).1
    have hv := (hobj (k, v) (by simp)).2
    have hs : jfieldsChars ((k, v) :: (k2, v2) :: fs') ++ '}' :: rest =
        '"' :: (k ++ '"' :: (':' :: (jvalChars v ++ ',' ::
          (jfieldsChars ((k2, v2) :: fs') ++ '}' :: rest)))) := by
      rw [show jfieldsChars ((k, v) :: (k2, v2) :: fs') =
        jstrChars k ++ ':' :: jvalChars v ++ ',' :: jfieldsChars ((k2, v2) :: fs') from rfl]
      rw [jstrChars_append k _ hk]
      simp
    rw [hs, parseObjFields, skipWs_cons '"' _ (by decide)]
    simp only
    rw [if_pos trivial, parseJStringBody_plain k _ hk]
    simp only
    rw [skipWs_cons ':' _ (by decide)]
    simp only
    rw [if_pos trivial, parseOneVal_print v hv _ (by intro c hc; cases hc; decide)]
    simp only
    rw [skipWs_cons ',' _ (by decide)]
    simp only
    rw [if_neg (by decide : ¬(',' = '}')), if_pos trivial]
    rw [ih k2 v2 (fun g hg => hobj g (by simp [hg])) fl
      (by simp only [List.length_cons] at hfuel; omega)]

theorem jfieldsChars_cons_head (k : List Char) (v : JVal) (fs : List (List Char × JVal))
    (hk : ∀ c ∈ k, plainJChar c = true) :
    ∃ cs, jfieldsChars ((k, v) :: fs) = '"' :: cs := by
  cases fs with
  | nil =>
    refine ⟨k ++ '"' :: (':' :: jvalChars v), ?_⟩
    rw [show jfieldsChars [(k, v)] = jstrChars k ++ ':' :: jvalChars v from rfl,
      jstrChars_append k _ hk]
  | cons f fs' =>
    refine ⟨k ++ '"' :: (':' :: (jvalChars v ++ ',' :: jfieldsChars (f :: fs'))), ?_⟩
    rw [show jfieldsChars ((k, v) :: f :: fs') =
      jstrChars k ++ ':' :: jvalChars v ++ ',' :: jfieldsChars (f :: fs') from rfl,
      jstrChars_append k _ hk]
    simp

/-- The model `JSON.parse` recovers a serialized flat object. -/
theorem jsonParse_print_obj (fields : List (List Char × JVal)) (hobj : objOK fields) :
    jsonParse (jvalChars (.jobj fields)) = some (.jobj fields) := by
  have hsplit : jvalChars (.jobj fields) = '{' :: (jfieldsChars fields ++ ['}']) := by
    rw [show jvalChars (.jobj fields) = ('{' :: jfieldsChars fields) ++ ['}'] from rfl]
    simp
  rw [jsonParse, hsplit]
  simp only [skipWs_cons '{' _ (by decide)]
  rw [if_pos trivial, parseObjAfterBrace]
  cases fields with
  | nil =>
    rw [show jfieldsChars [] = [] from rfl, List.nil_append,
      skipWs_cons '}' [] (by decide)]
    simp [skipWs]
  | cons f fs =>
    obtain ⟨k, v⟩ := f
    obtain ⟨cs, hcs⟩ := jfieldsChars_cons_head k v fs (hobj (k, v) (by simp)).1
    have hflen : fs.length < (jfieldsChars ((k, v) :: fs) ++ ['}']).length := by
      have := jfieldsChars_length ((k, v) :: fs)
      simp only [List.length_cons] at this
      simp only [List.length_append, List.length_singleton]
      omega
    rw [hcs, List.cons_append, skipWs_cons '"' _ (by decide)]
    simp only
    rw [if_neg (by decide : ¬('"' = '}')), ← List.cons_append, ← hcs,
      show (['}'] : List Char) = '}' :: [] from rfl,
      parseObjFields_print k v fs hobj [] _ (by simpa using hflen)]
    simp [skipWs]

theorem policyStrChar_plain (c : Char) (h : policyStrChar c = true) : plainJChar c = true := by
  simp only [policyStrChar, Bool.and_eq_true] at h
  exact h.1

theorem policyStrChar_lt (c : Char) (h : policyStrChar c = true) : c.toNat < 256 := by
  simp only [policyStrChar, Bool.and_eq_true, decide_eq_true_eq] at h
  exact h.2

theorem policiesFields_objOK (p : Policies) (h : validPolicies p) : objOK (policiesFields p) := by
  intro f hf
  unfold policiesFields at hf
  rw [List.mem_append] at hf
  rcases hf with hf | hf
  rw [List.mem_append] at hf
  rcases hf with hf | hf
  rw [List.mem_append] at hf
  rcases hf with hf | hf
  · rcases he : p.expiresAt with _ | t <;> rw [he] at hf
    · simp at hf
    · rw [List.mem_singleton] at hf
      subst hf
      exact ⟨fun c hc => (by decide : ∀ c ∈ "expiresAt".toList, plainJChar c = true) c hc, Or.inl trivial⟩
  · rcases he : p.maxDownloads with _ | m <;> rw [he] at hf
    · simp at hf
    · rw [List.mem_singleton] at hf
      subst hf
      exact ⟨fun c hc => (by decide : ∀ c ∈ "maxDownloads".toList, plainJChar c = true) c hc, Or.inl trivial⟩
  · rcases he : p.selfDestruct with _ | b <;> rw [he] at hf
    · simp at hf
    · rw [List.mem_singleton] at hf
      subst hf
      exact ⟨fun c hc => (by decide : ∀ c ∈ "selfDestruct".toList, plainJChar c = true) c hc, Or.inl trivial⟩
  · rcases he : p.allowedCountries with _ | cs <;> rw [he] at hf
    · simp at hf
    · rw [List.mem_singleton] at hf
      subst hf
      refine ⟨fun c hc => (by decide : ∀ c ∈ "allowedCountries".toList, plainJChar c = true) c hc,
        Or.inr ⟨cs.map JVal.jstr, rfl, ?_⟩⟩
      intro x hx
      rw [List.mem_map] at hx
      obtain ⟨s, hs, rfl⟩ := hx
      intro c hc
      exact policyStrChar_plain c (h cs he s hs c hc)

/-- The model `JSON.parse` inverts `JSON.stringify` on valid policies. -/
theorem jsonParse_stringifyPolicies (p : Policies) (h : validPolicies p) :
    jsonParse (stringifyPolicies p) = some (policiesToJVal p) :=
  jsonParse_print_obj (policiesFields p) (policiesFields_objOK p h)

theorem digitChar10_lt (d : Nat) : (digitChar10 d).toNat < 256 := by
  unfold digitChar10
  by_cases hd : d < ("0123456789".toList).length
  · rw [List.getD_eq_getElem _ _ hd]
    exact (by decide : ∀ c ∈ "0123456789".toList, c.toNat < 256) _ (List.getElem_mem hd)
  · rw [List.getD_eq_default _ _ (by omega)]
    decide

theorem natDigitsAux_char_lt (fuel : Nat) :
    ∀ n, ∀ c ∈ natDigitsAux fuel n, c.toNat < 256 := by
  induction fuel with
  | zero => intro n c hc; simp [natDigitsAux] at hc
  | succ fuel ih =>
    intro n c hc
    rw [natDigitsAux] at hc
    split at hc
    · rw [List.mem_singleton] at hc
      subst hc
      exact digitChar10_lt n
    · rw [List.mem_append] at hc
      rcases hc with hc | hc
      · exact ih (n / 10) c hc
      · rw [List.mem_singleton] at hc
        subst hc
        exact digitChar10_lt (n % 10)

theorem natDigits_lt (n : Nat) : ∀ c ∈ natDigits n, c.toNat < 256 :=
  natDigitsAux_char_lt (n + 1) n

theorem intChars_lt (i : Int) : ∀ c ∈ intChars i, c.toNat < 256 := by
  unfold intChars
  split
  · intro c hc
    rw [List.mem_cons] at hc
    rcases hc with rfl | hc
    · decide
    · exact natDigits_lt _ c hc
  · exact natDigits_lt _

theorem escapeJChar_chars (c d : Char) (hd : d ∈ escapeJChar c) :
    d = c ∨ d = '\\' ∨ d = '"' := by
  unfold escapeJChar at hd
  split at hd
  · rw [List.mem_cons, List.mem_singleton] at hd
    rcases hd with rfl | rfl
    · exact Or.inr (Or.inl rfl)
    · exact Or.inr (Or.inr rfl)
  · split at hd
    · rw [List.mem_cons, List.mem_singleton] at hd
      rcases hd with rfl | rfl
      · exact Or.inr (Or.inl rfl)
      · exact Or.inr (Or.inl rfl)
    · rw [List.mem_singleton] at hd
      subst hd
      exact Or.inl rfl

theorem jstrChars_lt (k : List Char) (hk : ∀ c ∈ k, c.toNat < 256) :
    ∀ c ∈ jstrChars k, c.toNat < 256 := by
  intro c hc
  rw [jstrChars, List.mem_append] at hc
  rcases hc with hc | hc
  · rw [List.mem_cons] at hc
    rcases hc with rfl | hc
    · decide
    · rw [List.mem_flatten] at hc
      obtain ⟨l, hl, hcl⟩ := hc
      rw [List.mem_map] at hl
      obtain ⟨d, hd, rfl⟩ := hl
      rcases escapeJChar_chars d c hcl with rfl | rfl | rfl
      · exact hk c hd
      · decide
      · decide
  · rw [List.mem_singleton] at hc
    subst hc
    decide

theorem jvalListChars_lt (xs : List JVal)
    (hx : ∀ x ∈ xs, ∀ c ∈ jvalChars x, c.toNat < 256) :
    ∀ c ∈ jvalListChars xs, c.toNat < 256 := by
  match xs with
  | [] => intro c hc; simp [jvalListChars] at hc
  | [v] =>
    intro c hc
    rw [show jvalListChars [v] = jvalChars v from rfl] at hc
    exact hx v (by simp) c hc
  | v :: v' :: vs =>
    intro c hc
    rw [show jvalListChars (v :: v' :: vs) = jvalChars v ++ ',' :: jvalListChars (v' :: vs)
      from rfl, List.mem_append] at hc
    rcases hc with hc | hc
    · exact hx v (by simp) c hc
    · rw [List.mem_cons] at hc
      rcases hc with rfl | hc
      · decide
      · exact jvalListChars_lt (v' :: vs) (fun y hy => hx y (by simp [hy])) c hc

theorem jfieldsChars_lt (fields : List (List Char × JVal))
    (hf : ∀ f ∈ fields, (∀ c ∈ f.1, c.toNat < 256) ∧ (∀ c ∈ jvalChars f.2, c.toNat < 256)) :
    ∀ c ∈ jfieldsChars fields, c.toNat < 256 := by
  match fields with
  | [] => intro c hc; simp [jfieldsChars] at hc
  | [(k, v)] =>
    intro c hc
    rw [show jfieldsChars [(k, v)] = jstrChars k ++ ':' :: jvalChars v from rfl,
      List.mem_append] at hc
    rcases hc with hc | hc
    · exact jstrChars_lt k (hf (k, v) (by simp)).1 c hc
    · rw [List.mem_cons] at hc
      rcases hc with rfl | hc
      · decide
      · exact (hf (k, v) (by simp)).2 c hc
  | (k, v) :: f :: fs =>
    intro c hc
    rw [show jfieldsChars ((k, v) :: f :: fs) =
      jstrChars k ++ ':' :: jvalChars v ++ ',' :: jfieldsChars (f :: fs) from rfl] at hc
    rw [List.mem_append] at hc
    rcases hc with hc | hc
    rw [List.mem_append] at hc
    rcases hc with hc | hc
    · exact jstrChars_lt k (hf (k, v) (by simp)).1 c hc
    · rw [List.mem_cons] at hc
      rcases hc with rfl | hc
      · decide
      · exact (hf (k, v) (by simp)).2 c hc
    · rw [List.mem_cons] at hc
      rcases hc with rfl | hc
      · decide
      · exact jfieldsChars_lt (f :: fs) (fun g hg => hf g (by simp [hg])) c hc

theorem policiesFields_lt (p : Policies) (h : validPolicies p) :
    ∀ f ∈ policiesFields p, (∀ c ∈ f.1, c.toNat < 256) ∧ (∀ c ∈ jvalChars f.2, c.toNat < 256) := by
  intro f hf
  unfold policiesFields at hf
  rw [List.mem_append] at hf
  rcases hf with hf | hf
  rw [List.mem_append] at hf
  rcases hf with hf | hf
  rw [List.mem_append] at hf
  rcases hf with hf | hf
  · rcases he : p.expiresAt with _ | t <;> rw [he] at hf
    · simp at hf
    · rw [List.mem_singleton] at hf
      subst hf
      exact ⟨fun c hc => (by decide : ∀ c ∈ "expiresAt".toList, c.toNat < 256) c hc, intChars_lt t⟩
  · rcases he : p.maxDownloads with _ | m <;> rw [he] at hf
    · simp at hf
    · rw [List.mem_singleton] at hf
      subst hf
      exact ⟨fun c hc => (by decide : ∀ c ∈ "maxDownloads".toList, c.toNat < 256) c hc, intChars_lt m⟩
  · rcases he : p.selfDestruct with _ | b <;> rw [he] at hf
    · simp at hf
    · rw [List.mem_singleton] at hf
      subst hf
      refine ⟨fun c hc => (by decide : ∀ c ∈ "selfDestruct".toList, c.toNat < 256) c hc, ?_⟩
      cases b <;> decide
  · rcases he : p.allowedCountries with _ | cs <;> rw [he] at hf
    · simp at hf
    · rw [List.mem_singleton] at hf
      subst hf
      refine ⟨fun c hc => (by decide : ∀ c ∈ "allowedCountries".toList, c.toNat < 256) c hc, ?_⟩
      intro c hc
      rw [show jvalChars (.jarr (cs.map JVal.jstr)) =
        ('[' :: jvalListChars (cs.map JVal.jstr)) ++ [']'] from rfl, List.mem_append] at hc
      rcases hc with hc | hc
      · rw [List.mem_cons] at hc
        rcases hc with rfl | hc
        · decide
        · refine jvalListChars_lt (cs.map JVal.jstr) ?_ c hc
          intro x hx
          rw [List.mem_map] at hx
          obtain ⟨s, hs, rfl⟩ := hx
          exact jstrChars_lt s (fun d hd => policyStrChar_lt d (h cs he s hs d hd))
      · rw [List.mem_singleton] at hc
        subst hc
        decide

theorem stringifyPolicies_lt (p : Policies) (h : validPolicies p) :
    ∀ c ∈ stringifyPolicies p, c.toNat < 256 := by
  intro c hc
  rw [show stringifyPolicies p =
    ('{' :: jfieldsChars (policiesFields p)) ++ ['}'] from rfl, List.mem_append] at hc
  rcases hc with hc | hc
  · rw [List.mem_cons] at hc
    rcases hc with rfl | hc
    · decide
    · exact jfieldsChars_lt (policiesFields p) (policiesFields_lt p h) c hc
  · rw [List.mem_singleton] at hc
    subst hc
    decide

/-- For a valid policy object, `btoa(JSON.stringify(policies))` succeeds. -/
theorem btoaJS_stringifyPolicies (p : Policies) (h : validPolicies p) :
    btoaJS (stringifyPolicies p) =
      some (b64encode ((stringifyPolicies p).map Char.toNat)) := by
  have hall : (stringifyPolicies p).all (fun c => decide (c.toNat < 256)) = true := by
    rw [List.all_eq_true]
    intro c hc
    simp only [decide_eq_true_eq]
    exact stringifyPolicies_lt p h c hc
  rw [btoaJS, if_pos hall]

/-! ## Codec correctness -/

theorem removeFirstSub_cons (pat : List Char) (c : Char) (rest : List Char) :
    removeFirstSub pat (c :: rest) =
      if pat.isPrefixOf (c :: rest) then (c :: rest).drop pat.length
      else c :: removeFirstSub pat rest := rfl

theorem charCode_roundtrip (b : Nat) (hb : b < 256) : (Char.ofNat b).toNat = b := by
  have hv : b.isValidChar := Or.inl (by omega)
  rw [Char.ofNat, dif_pos hv]
  rfl

theorem uint8ArrayToBase64_eq (arr : List Nat) (h : ∀ b ∈ arr, b < 256) :
    uint8ArrayToBase64 arr = b64encode arr := by
  rw [uint8ArrayToBase64, stringFromCharCodes, btoaJS]
  have hcond : (arr.map Char.ofNat).all (fun c => decide (c.toNat < 256)) = true := by
    rw [List.all_eq_true]
    intro c hc
    rw [List.mem_map] at hc
    obtain ⟨b, hb, rfl⟩ := hc
    simp [charCode_roundtrip b (h b hb), h b hb]
  rw [if_pos hcond]
  rw [List.map_map, show (Char.toNat ∘ Char.ofNat) = fun b => (Char.ofNat b).toNat from rfl]
  rw [List.map_congr_left (fun b hb => charCode_roundtrip b (h b hb))]
  simp

theorem b64encode_chars (bytes : List Nat) : ∀ c ∈ b64encode bytes, c ≠ '.' ∧ c ≠ '_' := by
  intro c hc
  rw [b64encode_eq_groups, List.mem_append] at hc
  rcases hc with hc | hc
  · rw [List.mem_map] at hc
    obtain ⟨n, _, rfl⟩ := hc
    have hns := b64Char_not_special n
    constructor <;> · intro he; refine hns ?_; rw [he]; simp
  · rw [List.mem_replicate] at hc
    obtain ⟨_, rfl⟩ := hc
    exact ⟨by decide, by decide⟩

theorem removeFirstSub_skip_name (xs t : List Char) (hx : containsSub ENC xs = false) :
    removeFirstSub ENC (xs ++ '_' :: t) = xs ++ removeFirstSub ENC ('_' :: t) := by
  induction xs with
  | nil => simp
  | cons c xs ih =>
    have hx2 : containsSub ENC xs = false := by
      rw [containsSub, Bool.or_eq_false_iff] at hx
      exact hx.2
    have hx1 : ENC.isPrefixOf (c :: xs) = false := by
      rw [containsSub, Bool.or_eq_false_iff] at hx
      exact hx.1
    have hnp : ¬(ENC.isPrefixOf (c :: (xs ++ '_' :: t)) = true) := by
      intro hpre
      rw [List.isPrefixOf_iff_prefix] at hpre
      obtain ⟨u, hu⟩ := hpre
      rw [show c :: (xs ++ '_' :: t) = (c :: xs) ++ '_' :: t from rfl] at hu
      by_cases hlen : ENC.length ≤ (c :: xs).length
      · have htake : ((c :: xs) ++ '_' :: t).take ENC.length = (c :: xs).take ENC.length :=
          List.take_append_of_le_length hlen
        rw [← hu, List.take_left] at htake
        have hpre2 : ENC.isPrefixOf (c :: xs) = true := by
          rw [List.isPrefixOf_iff_prefix, htake]
          exact List.take_prefix _ _
        rw [hpre2] at hx1
        cases hx1
      · rcases List.append_eq_append_iff.mp hu.symm with ⟨a', ha1, ha2⟩ | ⟨c', hc1, hc2⟩
        · cases a' with
          | nil =>
            rw [List.append_nil] at ha1
            rw [ha1] at hlen
            simp at hlen
          | cons d a'' =>
            have hd : d = '_' := by
              have := congrArg (List.head?) ha2
              simpa using this.symm
            subst hd
            have hmem : '_' ∈ ENC := by
              rw [ha1]
              simp
            exact absurd hmem (by decide)
        · have : ENC.length ≤ (c :: xs).length := by
            rw [hc1]
            simp
          omega
    rw [show (c :: xs) ++ '_' :: t = c :: (xs ++ '_' :: t) from rfl, removeFirstSub_cons,
      if_neg hnp, ih hx2]
    rfl

theorem removeFirstSub_no_dot (xs t : List Char) (hx : ∀ c ∈ xs, c ≠ '.') :
    removeFirstSub ENC (xs ++ t) = xs ++ removeFirstSub ENC t := by
  induction xs with
  | nil => simp
  | cons c xs ih =>
    have hc := hx c (by simp)
    have hnp : ¬(ENC.isPrefixOf (c :: (xs ++ t)) = true) :=
      isPrefixOf_word_ne ENC c (xs ++ t) '.' "encrypted".toList rfl (fun he => hc he.symm)
    rw [List.cons_append, removeFirstSub_cons, if_neg hnp, ih (fun d hd => hx d (by simp [hd]))]
    rfl

theorem removeFirstSub_ENC_self : removeFirstSub ENC ENC = [] := rfl

/-- Removing the first `.encrypted` from a well-formed encoded name removes
the final marker, provided the original name does not contain the marker. -/
theorem removeFirst_encoded (name salt64 iv64 pol64 : List Char)
    (hname : containsSub ENC name = false)
    (hs : ∀ c ∈ salt64, c ≠ '.' ∧ c ≠ '_')
    (hi : ∀ c ∈ iv64, c ≠ '.' ∧ c ≠ '_')
    (hp : ∀ c ∈ pol64, c ≠ '.' ∧ c ≠ '_') :
    removeFirstSub ENC (name ++ '_' :: (salt64 ++ '_' :: (iv64 ++ '_' :: (pol64 ++ ENC)))) =
      name ++ '_' :: (salt64 ++ '_' :: (iv64 ++ '_' :: pol64)) := by
  rw [removeFirstSub_skip_name name _ hname]
  have hdu : ¬(ENC.isPrefixOf ('_' :: (salt64 ++ '_' :: (iv64 ++ '_' :: (pol64 ++ ENC)))) = true) :=
    isPrefixOf_word_ne ENC '_' _ '.' "encrypted".toList rfl (by decide)
  rw [removeFirstSub_cons, if_neg hdu]
  rw [removeFirstSub_no_dot salt64 _ (fun c hc => (hs c hc).1)]
  have hdu2 : ¬(ENC.isPrefixOf ('_' :: (iv64 ++ '_' :: (pol64 ++ ENC))) = true) :=
    isPrefixOf_word_ne ENC '_' _ '.' "encrypted".toList rfl (by decide)
  rw [removeFirstSub_cons, if_neg hdu2]
  rw [removeFirstSub_no_dot iv64 _ (fun c hc => (hi c hc).1)]
  have hdu3 : ¬(ENC.isPrefixOf ('_' :: (pol64 ++ ENC)) = true) :=
    isPrefixOf_word_ne ENC '_' _ '.' "encrypted".toList rfl (by decide)
  rw [removeFirstSub_cons, if_neg hdu3]
  rw [removeFirstSub_no_dot pol64 _ (fun c hc => (hp c hc).1), removeFirstSub_ENC_self,
    List.append_nil]

theorem split_encoded (name salt64 iv64 pol64 : List Char)
    (hs : '_' ∉ salt64) (hi : '_' ∉ iv64) (hp : '_' ∉ pol64) :
    splitOnChar '_' (name ++ '_' :: (salt64 ++ '_' :: (iv64 ++ '_' :: pol64))) =
      splitOnChar '_' name ++ [salt64, iv64, pol64] := by
  rw [splitOnChar_append_sep, splitOnChar_append_sep, splitOnChar_append_sep,
    splitOnChar_of_not_mem _ _ hs, splitOnChar_of_not_mem _ _ hi,
    splitOnChar_of_not_mem _ _ hp]
  rfl

/-- Decoding the actual (standard-base64) encoded name recovers the
metadata when the original name does not contain `.encrypted`. -/
theorem decode_specEncodedNameStd (name : List Char) (salt iv : List Nat) (p : Policies)
    (hname : containsSub ENC name = false) (hp : validPolicies p) :
    decodeMetadataFromFilename (specEncodedNameStd name salt iv p) =
      some ⟨name, b64encode salt, b64encode iv, policiesToJVal p⟩ := by
  have hassoc : specEncodedNameStd name salt iv p =
      name ++ '_' :: (b64encode salt ++ '_' :: (b64encode iv ++ '_' ::
        (b64encode ((stringifyPolicies p).map Char.toNat) ++ ENC))) := by
    rw [specEncodedNameStd]
    simp
  rw [decodeMetadataFromFilename, hassoc]
  rw [removeFirst_encoded name _ _ _ hname (b64encode_chars salt) (b64encode_chars iv)
    (b64encode_chars _)]
  rw [split_encoded name _ _ _
    (fun hm => (b64encode_chars salt '_' hm).2 rfl)
    (fun hm => (b64encode_chars iv '_' hm).2 rfl)
    (fun hm => (b64encode_chars _ '_' hm).2 rfl)]
  have hlen : ¬((splitOnChar '_' name ++ [b64encode salt, b64encode iv,
      b64encode ((stringifyPolicies p).map Char.toNat)]).length < 4) := by
    have := splitOnChar_length_pos '_' name
    simp only [List.length_append]
    simp
    omega
  rw [if_neg hlen]
  rw [List.reverse_append]
  simp only [List.reverse_cons, List.reverse_nil, List.nil_append, List.cons_append,
    List.append_nil]
  have hcodes : ∀ b ∈ (stringifyPolicies p).map Char.toNat, b < 256 := by
    intro b hb
    rw [List.mem_map] at hb
    obtain ⟨c, hc, rfl⟩ := hb
    exact stringifyPolicies_lt p hp c hc
  rw [atob_b64encode _ hcodes]
  simp only
  have hsfc : stringFromCharCodes ((stringifyPolicies p).map Char.toNat) =
      stringifyPolicies p := by
    rw [stringFromCharCodes, List.map_map]
    rw [show (Char.ofNat ∘ Char.toNat) = fun c => Char.ofNat c.toNat from rfl]
    simp [Char.ofNat_toNat]
  rw [hsfc, jsonParse_stringifyPolicies p hp]
  simp only
  rw [List.reverse_reverse, joinChar_splitOnChar]

/-- `encodeMetadataInFilename` produces exactly the standard-base64 wire
format. -/
theorem encode_eq_specStd (name : List Char) (salt iv : List Nat) (p : Policies)
    (hsalt : ∀ b ∈ salt, b < 256) (hiv : ∀ b ∈ iv, b < 256) (hp : validPolicies p) :
    encodeMetadataInFilename name salt iv p = some (specEncodedNameStd name salt iv p) := by
  rw [encodeMetadataInFilename, btoaJS_stringifyPolicies p hp]
  simp only
  rw [uint8ArrayToBase64_eq salt hsalt, uint8ArrayToBase64_eq iv hiv]
  rfl

theorem lastThree_structure (parts : List (List Char)) (h : 4 ≤ parts.length) :
    ∃ p i s r, parts.reverse = p :: i :: s :: r := by
  have h1 : parts.reverse ≠ [] := by
    intro he
    have := congrArg List.length he
    simp only [List.length_reverse, List.length_nil] at this
    omega
  obtain ⟨p, t1, hp⟩ := List.exists_cons_of_ne_nil h1
  have h2 : t1 ≠ [] := by
    intro he
    have := congrArg List.length hp
    rw [he] at this
    simp only [List.length_reverse, List.length_cons, List.length_nil] at this
    omega
  obtain ⟨i, t2, hi⟩ := List.exists_cons_of_ne_nil h2
  have h3 : t2 ≠ [] := by
    intro he
    have := congrArg List.length hp
    rw [hi, he] at this
    simp only [List.length_reverse, List.length_cons, List.length_nil] at this
    omega
  obtain ⟨s, r, hs⟩ := List.exists_cons_of_ne_nil h3
  exact ⟨p, i, s, r, by rw [hp, hi, hs]⟩

/-- The decoder equals its take/last-index description: split, take the last
three segments as salt/iv/policy in that order, rejoin the front. -/
theorem decode_eq_lastThreeRule (filename : List Char) :
    decodeMetadataFromFilename filename = decodeLastThreeRule filename := by
  rw [decodeMetadataFromFilename, decodeLastThreeRule]
  generalize splitOnChar '_' (removeFirstSub ENC filename) = parts
  by_cases hlen : parts.length < 4
  · rw [if_pos hlen, if_pos hlen]
  · rw [if_neg hlen, if_neg hlen]
    obtain ⟨p, i, s, r, hrv⟩ := lastThree_structure parts (by omega)
    have hparts : parts = r.reverse ++ [s, i, p] := by
      rw [← List.reverse_reverse parts, hrv]
      simp
    have hlenp : parts.length = r.length + 3 := by
      rw [hparts]
      simp
    have htake : parts.take (parts.length - 3) = r.reverse := by
      rw [hlenp, show r.length + 3 - 3 = r.reverse.length by simp, hparts]
      exact List.take_left _ _
    have hgd1 : parts.getD (parts.length - 3) [] = s := by
      rw [hlenp, show r.length + 3 - 3 = r.length from rfl, hparts]
      rw [List.getD_append_right _ _ _ _ (by simp)]
      simp
    have hgd2 : parts.getD (parts.length - 2) [] = i := by
      rw [hlenp, show r.length + 3 - 2 = r.length + 1 from rfl, hparts]
      rw [List.getD_append_right _ _ _ _ (by simp)]
      simp
    have hgd3 : parts.getD (parts.length - 1) [] = p := by
      rw [hlenp, show r.length + 3 - 1 = r.length + 2 from rfl, hparts]
      rw [List.getD_append_right _ _ _ _ (by simp)]
      simp
    rw [hrv, htake, hgd1, hgd2, hgd3]

theorem removeFirstSub_eq_or (pat s : List Char) :
    removeFirstSub pat s = s ∨
      ∃ u v, s = u ++ pat ++ v ∧ removeFirstSub pat s = u ++ v := by
  induction s with
  | nil => left; rfl
  | cons c rest ih =>
    by_cases hp : pat.isPrefixOf (c :: rest) = true
    · right
      rw [List.isPrefixOf_iff_prefix] at hp
      obtain ⟨w, hw⟩ := hp
      refine ⟨[], w, by simp [← hw], ?_⟩
      rw [removeFirstSub_cons, if_pos (by rw [List.isPrefixOf_iff_prefix]; exact ⟨w, hw⟩)]
      rw [← hw, List.nil_append]
      simp [List.drop_left]
    · rcases ih with h | ⟨u, v, h1, h2⟩
      · left
        rw [removeFirstSub_cons, if_neg hp, h]
      · right
        refine ⟨c :: u, v, by rw [h1]; simp, ?_⟩
        rw [removeFirstSub_cons, if_neg hp, h2]
        simp

theorem count_removeFirstSub_ENC (s : List Char) :
    (removeFirstSub ENC s).count '_' = s.count '_' := by
  rcases removeFirstSub_eq_or ENC s with h | ⟨u, v, h1, h2⟩
  · rw [h]
  · rw [h2, h1]
    simp only [List.count_append]
    have : ENC.count '_' = 0 := by decide
    omega

/-- `decodeMetadataFromFilename` fails exactly on fewer than four
`_`-segments or an undecodable policy segment. -/
theorem decode_none_iff (filename : List Char) :
    decodeMetadataFromFilename filename = none ↔
      filename.count '_' + 1 < 4 ∨
        policySegDecodes ((splitOnChar '_' (removeFirstSub ENC filename)).getLast?.getD [])
          = false := by
  rw [decodeMetadataFromFilename]
  generalize hparts : splitOnChar '_' (removeFirstSub ENC filename) = parts
  have hcnt : parts.length = filename.count '_' + 1 := by
    rw [← hparts, splitOnChar_length_eq_count, count_removeFirstSub_ENC]
  by_cases hlen : parts.length < 4
  · rw [if_pos hlen]
    constructor
    · intro _
      left
      omega
    · intro _
      rfl
  · rw [if_neg hlen]
    obtain ⟨p, i, s, r, hrv⟩ := lastThree_structure parts (by omega)
    have hlast : parts.getLast?.getD [] = p := by
      rw [List.getLast?_eq_head?_reverse, hrv]
      rfl
    rw [hrv, hlast]
    simp only
    cases hat : atob p with
    | none =>
      simp [policySegDecodes, hat]
    | some bs =>
      cases hj : jsonParse (stringFromCharCodes bs) with
      | none =>
        simp [policySegDecodes, hat, hj]
      | some v =>
        simp only [policySegDecodes, hat, hj]
        constructor
        · intro he
          cases he
        · intro he
          rcases he with he | he
          · omega
          · simp at he

/-! ## Share URL correctness -/

theorem takeWhile_all (p : Char → Bool) (l : List Char) (h : ∀ c ∈ l, p c = true) :
    l.takeWhile p = l := by
  have := takeWhile_append_all p l [] h
  simpa using this

theorem afterSub_cons (pat : List Char) (c : Char) (rest : List Char) :
    afterSub pat (c :: rest) =
      if pat.isPrefixOf (c :: rest) then some ((c :: rest).drop pat.length)
      else afterSub pat rest := rfl

theorem afterSub_skip_no_colon (xs t : List Char) (hx : ∀ c ∈ xs, c ≠ ':') :
    afterSub "://".toList (xs ++ t) = afterSub "://".toList t := by
  induction xs with
  | nil => simp
  | cons c xs ih =>
    have hc := hx c (by simp)
    have hnp : ¬("://".toList.isPrefixOf (c :: (xs ++ t)) = true) :=
      isPrefixOf_word_ne "://".toList c (xs ++ t) ':' "//".toList rfl (fun he => hc he.symm)
    rw [List.cons_append, afterSub_cons, if_neg hnp, ih (fun d hd => hx d (by simp [hd]))]

theorem afterSub_self (t : List Char) :
    afterSub "://".toList ("://".toList ++ t) = some t := by
  have h1 : "://".toList ++ t = ':' :: ("//".toList ++ t) := rfl
  have hp : ("://".toList).isPrefixOf ("://".toList ++ t) = true := isPrefixOf_append_self _ _
  rw [h1, afterSub_cons, ← h1, if_pos hp, List.drop_left]

theorem bne_true_of_ne (c d : Char) (h : c ≠ d) : (c != d) = true := by
  simpa using h

/-- Building and parsing a share locator round-trips when the components
avoid the URL metacharacters. -/
theorem pathPercentEncode_clean (s : List Char) (h : ∀ c ∈ s, pathEncodeSet c = false) :
    pathPercentEncode s = s := by
  induction s with
  | nil => rfl
  | cons c rest ih =>
    have hc : ¬(pathEncodeSet c = true) := by
      rw [h c (by simp)]
      exact Bool.false_ne_true
    rw [pathPercentEncode, if_neg hc, ih (fun d hd => h d (by simp [hd]))]
    rfl

theorem map_backslash_id (s : List Char) (h : ∀ c ∈ s, c ≠ '\\') :
    s.map (fun c => if c = '\\' then '/' else c) = s := by
  induction s with
  | nil => rfl
  | cons c rest ih =>
    simp only [List.map_cons]
    rw [if_neg (h c (by simp)), ih (fun d hd => h d (by simp [hd]))]

theorem formUrlDecodeAux_clean (fuel : Nat) (s : List Char)
    (h : ∀ c ∈ s, c ≠ '+' ∧ c ≠ '%') (hfuel : s.length ≤ fuel) :
    formUrlDecodeAux fuel s = s := by
  induction fuel generalizing s with
  | zero => rfl
  | succ fuel ih =>
    cases s with
    | nil => rfl
    | cons c rest =>
      have h1 : ¬(c = '+') := (h c (by simp)).1
      have h2 : ¬(c = '%') := (h c (by simp)).2
      have hr : rest.length ≤ fuel := by
        simp only [List.length_cons] at hfuel
        omega
      have hrec : formUrlDecodeAux fuel rest = rest :=
        ih rest (fun d hd => h d (by simp [hd])) hr
      rcases rest with _ | ⟨a, _ | ⟨b, rest2⟩⟩
      · simp [formUrlDecodeAux, h1, h2, hrec]
      · simp [formUrlDecodeAux, h1, h2, hrec]
      · simp [formUrlDecodeAux, h1, h2, hrec]

theorem formUrlDecode_clean (s : List Char) (h : ∀ c ∈ s, c ≠ '+' ∧ c ≠ '%') :
    formUrlDecode s = s :=
  formUrlDecodeAux_clean s.length s h le_rfl

theorem parseShareUrl_none (url : List Char)
    (h : (splitOnChar '/' ((urlPathnameOf url).getD [])).getLast?.getD [] = [] ∨
         queryGet (urlFragmentOf url) "key".toList = none) :
    parseShareUrl url = none := by
  rw [parseShareUrl]
  cases hp : urlPathnameOf url with
  | none => rfl
  | some pathname =>
    rw [hp] at h
    simp only [Option.getD_some] at h
    show (match queryGet (urlFragmentOf url) "key".toList with
      | none => none
      | some key =>
        if (splitOnChar '/' pathname).getLast?.getD [] = [] then none
        else if key = [] then none
        else some ((splitOnChar '/' pathname).getLast?.getD [], key)) = none
    cases hq : queryGet (urlFragmentOf url) "key".toList with
    | none => rfl
    | some key =>
      simp only
      rcases h with h | h
      · rw [if_pos h]
      · rw [hq] at h
        exact Option.noConfusion h

theorem parseShareUrl_build (scheme host driveFileId humanKey : List Char)
    (hscheme : ∀ c ∈ scheme, c ≠ ':' ∧ c ≠ '#')
    (hhost : ∀ c ∈ host, c ≠ '/' ∧ c ≠ '\\' ∧ c ≠ '#')
    (hid : ∀ c ∈ driveFileId,
      c ≠ '/' ∧ c ≠ '\\' ∧ c ≠ '#' ∧ c ≠ '?' ∧ pathEncodeSet c = false)
    (hidne : driveFileId ≠ [])
    (hkey : ∀ c ∈ humanKey, c ≠ '&' ∧ c ≠ '#' ∧ c ≠ '+' ∧ c ≠ '%')
    (hkeyne : humanKey ≠ []) :
    parseShareUrl (buildShareUrl (scheme ++ "://".toList ++ host) driveFileId humanKey) =
      some (driveFileId, humanKey) := by
  have hurl : buildShareUrl (scheme ++ "://".toList ++ host) driveFileId humanKey =
      (scheme ++ "://".toList ++ (host ++ '/' :: ('f' :: '/' :: driveFileId))) ++
        '#' :: ("key=".toList ++ humanKey) := by
    rw [buildShareUrl]
    simp
  have hbase : ∀ c ∈ scheme ++ "://".toList ++ (host ++ '/' :: ('f' :: '/' :: driveFileId)),
      (c != '#') = true := by
    intro c hc
    refine bne_true_of_ne c '#' ?_
    simp only [List.mem_append, List.mem_cons] at hc
    rcases hc with (hc | hc) | hc | rfl | rfl | rfl | hc
    · exact (hscheme c hc).2
    · exact (by decide : ∀ c ∈ "://".toList, c ≠ '#') c hc
    · exact (hhost c hc).2.2
    · decide
    · decide
    · decide
    · exact (hid c hc).2.2.1
  have htake : (buildShareUrl (scheme ++ "://".toList ++ host) driveFileId
      humanKey).takeWhile (fun c => c != '#') =
      scheme ++ "://".toList ++ (host ++ '/' :: ('f' :: '/' :: driveFileId)) := by
    rw [hurl, takeWhile_append_all _ _ _ hbase,
      takeWhile_eq_nil_of_head _ _ (by intro c hc; cases hc; decide), List.append_nil]
  have hfrag : urlFragmentOf (buildShareUrl (scheme ++ "://".toList ++ host) driveFileId
      humanKey) = "key=".toList ++ humanKey := by
    rw [urlFragmentOf, hurl, dropWhile_append_all _ _ _ hbase,
      dropWhile_eq_self_of_head _ _ (by intro c hc; cases hc; decide)]
    rfl
  have hpath : urlPathnameOf (buildShareUrl (scheme ++ "://".toList ++ host) driveFileId
      humanKey) = some ('/' :: ('f' :: '/' :: driveFileId)) := by
    rw [urlPathnameOf, htake, List.append_assoc, afterSub_skip_no_colon _ _
      (fun c hc => (hscheme c hc).1), afterSub_self]
    simp only
    rw [dropWhile_append_all _ _ _ ?hall,
      dropWhile_eq_self_of_head _ _ (by intro c hc; cases hc; decide)]
    case hall =>
      intro c hc
      simp only [Bool.and_eq_true, bne_iff_ne]
      exact ⟨(hhost c hc).1, (hhost c hc).2.1⟩
    rw [takeWhile_all _ _ ?hq]
    case hq =>
      intro c hc
      refine bne_true_of_ne c '?' ?_
      simp only [List.mem_cons] at hc
      rcases hc with rfl | rfl | rfl | hc
      · decide
      · decide
      · decide
      · exact (hid c hc).2.2.2.1
    rw [map_backslash_id _ ?hbs, pathPercentEncode_clean _ ?hpe]
    case hbs =>
      intro c hc
      simp only [List.mem_cons] at hc
      rcases hc with rfl | rfl | rfl | hc
      · decide
      · decide
      · decide
      · exact (hid c hc).2.1
    case hpe =>
      intro c hc
      simp only [List.mem_cons] at hc
      rcases hc with rfl | rfl | rfl | hc
      · decide
      · decide
      · decide
      · exact (hid c hc).2.2.2.2
  rw [parseShareUrl, hpath]
  simp only
  have hsplit : splitOnChar '/' ('/' :: ('f' :: '/' :: driveFileId)) =
      [[], ['f'], driveFileId] := by
    rw [show '/' :: ('f' :: '/' :: driveFileId) = [] ++ '/' :: (['f'] ++ '/' :: driveFileId)
      from rfl, splitOnChar_append_sep, splitOnChar_append_sep,
      splitOnChar_of_not_mem _ _ (by decide),
      splitOnChar_of_not_mem _ _ (fun hm => (hid '/' hm).1 rfl)]
    rfl
  rw [hsplit]
  have hlast : ([[], ['f'], driveFileId] : List (List Char)).getLast?.getD [] = driveFileId := by
    rw [show ([[], ['f'], driveFileId] : List (List Char)) = [[], ['f']] ++ [driveFileId]
      from rfl, List.getLast?_concat]
    rfl
  rw [hlast, hfrag]
  have hqget : queryGet ("key=".toList ++ humanKey) "key".toList = some humanKey := by
    rw [queryGet, splitOnChar_of_not_mem '&' _ ?hamp]
    case hamp =>
      intro hm
      simp only [List.mem_append] at hm
      rcases hm with hm | hm
      · revert hm
        decide
      · exact (hkey '&' hm).1 rfl
    have hpk : pairKey ("key=".toList ++ humanKey) = "key".toList := by
      rw [pairKey, show "key=".toList ++ humanKey = "key".toList ++ ('=' :: humanKey) from by simp,
        takeWhile_append_all _ _ _ (by decide : ∀ c ∈ "key".toList, (c != '=') = true),
        takeWhile_eq_nil_of_head _ _ (by intro c hc; cases hc; decide), List.append_nil]
    have hpv : pairValue ("key=".toList ++ humanKey) = humanKey := by
      rw [pairValue, show "key=".toList ++ humanKey = "key".toList ++ ('=' :: humanKey) from
        by simp,
        dropWhile_append_all _ _ _ (by decide : ∀ c ∈ "key".toList, (c != '=') = true),
        dropWhile_eq_self_of_head _ _ (by intro c hc; cases hc; decide)]
      rfl
    rw [List.find?_cons_of_pos _ (by rw [hpk]; decide), Option.map_some']
    show some (formUrlDecode (pairValue ("key=".toList ++ humanKey))) = some humanKey
    rw [hpv, formUrlDecode_clean _ (fun c hc => ⟨(hkey c hc).2.2.1, (hkey c hc).2.2.2⟩)]
  rw [hqget]
  simp only
  rw [if_neg hidne, if_neg hkeyne]

/-! ## Generated human key: shape, key space, length -/

theorem splitOnChar_generateHumanKey (i j k : Fin 16) :
    splitOnChar '-' (generateHumanKey i j k) =
      [ADJECTIVES.getD ↑i [], NOUNS.getD ↑j [], WORDS.getD ↑k []] := by
  have hA : ('-' : Char) ∉ ADJECTIVES.getD ↑i [] := by revert i; decide
  have hN : ('-' : Char) ∉ NOUNS.getD ↑j [] := by revert j; decide
  have hW : ('-' : Char) ∉ WORDS.getD ↑k [] := by revert k; decide
  have hshape : generateHumanKey i j k =
      ADJECTIVES.getD ↑i [] ++ '-' :: (NOUNS.getD ↑j [] ++ '-' :: WORDS.getD ↑k []) := by
    rw [generateHumanKey]
    simp
  rw [hshape, splitOnChar_append_sep, splitOnChar_append_sep,
    splitOnChar_of_not_mem _ _ hA, splitOnChar_of_not_mem _ _ hN,
    splitOnChar_of_not_mem _ _ hW]
  rfl

theorem generateHumanKey_injective :
    Function.Injective (fun t : Fin 16 × Fin 16 × Fin 16 =>
      generateHumanKey t.1 t.2.1 t.2.2) := by
  intro t t' h
  obtain ⟨i, j, k⟩ := t
  obtain ⟨i', j', k'⟩ := t'
  simp only at h
  have hs := congrArg (splitOnChar '-') h
  rw [splitOnChar_generateHumanKey, splitOnChar_generateHumanKey] at hs
  simp only [List.cons.injEq, and_true] at hs
  obtain ⟨h1, h2, h3⟩ := hs
  have hA : ∀ a b : Fin 16, ADJECTIVES.getD ↑a [] = ADJECTIVES.getD ↑b [] → a = b := by decide
  have hN : ∀ a b : Fin 16, NOUNS.getD ↑a [] = NOUNS.getD ↑b [] → a = b := by decide
  have hW : ∀ a b : Fin 16, WORDS.getD ↑a [] = WORDS.getD ↑b [] → a = b := by decide
  have hi := hA i i' h1
  have hj := hN j j' h2
  have hk := hW k k' h3
  subst hi
  subst hj
  subst hk
  rfl

theorem humanKey_card :
    (Finset.image (fun t : Fin 16 × Fin 16 × Fin 16 => generateHumanKey t.1 t.2.1 t.2.2)
      Finset.univ).card = 4096 := by
  rw [Finset.card_image_of_injective _ generateHumanKey_injective, Finset.card_univ]
  simp

theorem generateHumanKey_shape (i j k : Fin 16) :
    ∃ a ∈ ADJECTIVES, ∃ n ∈ NOUNS, ∃ w ∈ WORDS,
      generateHumanKey i j k = a ++ '-' :: n ++ '-' :: w := by
  refine ⟨ADJECTIVES.getD ↑i [], ?_, NOUNS.getD ↑j [], ?_, WORDS.getD ↑k [], ?_, rfl⟩
  · exact (by decide : ∀ i : Fin 16, ADJECTIVES.getD ↑i [] ∈ ADJECTIVES) i
  · exact (by decide : ∀ j : Fin 16, NOUNS.getD ↑j [] ∈ NOUNS) j
  · exact (by decide : ∀ k : Fin 16, WORDS.getD ↑k [] ∈ WORDS) k

theorem generateHumanKey_length (i j k : Fin 16) :
    5 ≤ (generateHumanKey i j k).length := by
  have hA : 1 ≤ (ADJECTIVES.getD ↑i []).length := by revert i; decide
  have hN : 1 ≤ (NOUNS.getD ↑j []).length := by revert j; decide
  have hW : 1 ≤ (WORDS.getD ↑k []).length := by revert k; decide
  rw [generateHumanKey]
  simp only [List.length_append, List.length_cons]
  omega

/-! ## Claim theorems -/

/-- C1 (corrected): the codec round-trips — decoding the encoded filename
reproduces the original name (which may contain the delimiter `_`), the salt
and iv as their base64 string representations, and the policies — for every
original name that does not contain the substring `.encrypted`, byte-valued
salt and iv, and policies whose country strings are plain JSON characters.
The restriction on the name is forced: the decoder removes the FIRST
occurrence of `.encrypted`, so a name containing it breaks the round trip. -/
theorem c1_codec_roundtrip (name : List Char) (salt iv : List Nat) (p : Policies)
    (hname : containsSub ENC name = false)
    (hsalt : ∀ b ∈ salt, b < 256) (hiv : ∀ b ∈ iv, b < 256) (hp : validPolicies p) :
    (encodeMetadataInFilename name salt iv p).bind decodeMetadataFromFilename =
      some ⟨name, b64encode salt, b64encode iv, policiesToJVal p⟩ := by
  rw [encode_eq_specStd name salt iv p hsalt hiv hp]
  exact decode_specEncodedNameStd name salt iv p hname hp

/-- Witness: the round trip at a concrete metadata tuple whose name contains
the delimiter `_`. -/
theorem c1_codec_roundtrip_witness :
    (encodeMetadataInFilename "my_file.txt".toList [1, 2, 3] [4, 5] {}).bind
        decodeMetadataFromFilename =
      some ⟨"my_file.txt".toList, b64encode [1, 2, 3], b64encode [4, 5],
        policiesToJVal {}⟩ :=
  c1_codec_roundtrip "my_file.txt".toList [1, 2, 3] [4, 5] {} (by decide) (by decide)
    (by decide) (fun _ hcs => nomatch hcs)

/-- Counterexample to the claim as stated: for the original name
`doc.encrypted` the encoder succeeds but decoding its output fails (the
decoder removes the first `.encrypted`, leaving a stray suffix on the policy
segment), so the round trip does not hold for every original name. -/
theorem c1_codec_roundtrip_counterexample :
    (encodeMetadataInFilename "doc.encrypted".toList [1] [2] {}).isSome = true ∧
      (encodeMetadataInFilename "doc.encrypted".toList [1] [2] {}).bind
        decodeMetadataFromFilename = none :=
  ⟨rfl, rfl⟩

/-- C2 (corrected): the download-time policy check never denies for a
download-limit reason — it is insensitive to `maxDownloads` (the check reads
only `expiresAt`), and no download count is consulted anywhere.  The claimed
`Deny(DownloadLimitExceeded)` behaviour does not exist in the code. -/
theorem c2_download_limit_unenforced (p : Policies) (now : Int) :
    downloadPolicyCheck p now = downloadPolicyCheck { p with maxDownloads := none } now ∧
      downloadPolicyCheck p now ≠ some PolicyDenial.downloadLimitExceeded := by
  refine ⟨rfl, ?_⟩
  rw [downloadPolicyCheck]
  cases p.expiresAt with
  | none => exact fun h => Option.noConfusion h
  | some t =>
    show (if t ≠ 0 ∧ now > t then some PolicyDenial.expired else none) ≠
      some PolicyDenial.downloadLimitExceeded
    by_cases hc : t ≠ 0 ∧ now > t
    · rw [if_pos hc]
      intro h
      injection h with h'
      exact PolicyDenial.noConfusion h'
    · rw [if_neg hc]
      exact fun h => Option.noConfusion h

/-- Counterexample to the claim as stated: a policy with `maxDownloads = 1`
admits the download (at any observed count — none is even consulted), where
the claim requires `Deny(DownloadLimitExceeded)`. -/
theorem c2_download_limit_counterexample :
    downloadPolicyCheck { maxDownloads := some 1 } 5 = none := rfl

/-- C3 (confirmed over the ideal-AEAD model of Web Crypto): decrypting the
output of encryption with the same secret, salt and nonce recovers the
payload exactly; key derivation is a function of (secret, salt), hence
deterministic. -/
theorem c3_cipher_roundtrip (data : List Nat) (s : List Char) (salt iv : List Nat) :
    decryptFile (encryptFile data s salt iv).1 s salt iv = some data := by
  simp [decryptFile, encryptFile, aesGcmEncrypt, aesGcmDecrypt]

/-- C4 (corrected): the download-time policy check denies with `Expired`
exactly when `expiresAt` is set, NONZERO, and `now` is past it; and the
boundary holds for every nonzero timestamp T: a policy `{expiresAt := T}`
admits at `now = T - 1` and denies with `Expired` at `now = T + 1`.  The
restriction `T ≠ 0` is forced: the code guards the comparison with
JavaScript truthiness of `expiresAt`, so the timestamp 0 is treated as
"not set" and never denies. -/
theorem c4_expiry_boundary (T : Int) (hT : T ≠ 0) :
    (∀ (p : Policies) (now : Int),
        downloadPolicyCheck p now = some PolicyDenial.expired ↔
          ∃ t, p.expiresAt = some t ∧ t ≠ 0 ∧ now > t) ∧
      downloadPolicyCheck { expiresAt := some T } (T - 1) = none ∧
      downloadPolicyCheck { expiresAt := some T } (T + 1) = some PolicyDenial.expired := by
  refine ⟨?_, ?_, ?_⟩
  · intro p now
    rw [downloadPolicyCheck]
    cases p.expiresAt with
    | none =>
      constructor
      · intro h
        exact Option.noConfusion h
      · rintro ⟨t, ht, -, -⟩
        exact Option.noConfusion ht
    | some t =>
      show (if t ≠ 0 ∧ now > t then some PolicyDenial.expired else none) =
          some PolicyDenial.expired ↔
        ∃ u, (some t : Option Int) = some u ∧ u ≠ 0 ∧ now > u
      by_cases hc : t ≠ 0 ∧ now > t
      · rw [if_pos hc]
        exact ⟨fun _ => ⟨t, rfl, hc.1, hc.2⟩, fun _ => rfl⟩
      · rw [if_neg hc]
        constructor
        · intro h
          exact Option.noConfusion h
        · rintro ⟨u, hu, h0, hgt⟩
          injection hu with he
          subst he
          exact absurd ⟨h0, hgt⟩ hc
  · show (if T ≠ 0 ∧ T - 1 > T then some PolicyDenial.expired else none) = none
    rw [if_neg]
    rintro ⟨-, hgt⟩
    omega
  · show (if T ≠ 0 ∧ T + 1 > T then some PolicyDenial.expired else none) =
      some PolicyDenial.expired
    rw [if_pos ⟨hT, by omega⟩]

/-- Witness: the exact denial condition, and the expiry boundary at the
concrete timestamp 5. -/
theorem c4_expiry_boundary_witness :
    (∀ (p : Policies) (now : Int),
        downloadPolicyCheck p now = some PolicyDenial.expired ↔
          ∃ t, p.expiresAt = some t ∧ t ≠ 0 ∧ now > t) ∧
      downloadPolicyCheck { expiresAt := some 5 } 4 = none ∧
      downloadPolicyCheck { expiresAt := some 5 } 6 = some PolicyDenial.expired :=
  c4_expiry_boundary 5 (by decide)

/-- Counterexample to the claim as stated: for T = 0 the policy
`{expiresAt := 0}` evaluated at `now = T + 1 = 1` admits instead of denying
with `Expired` (JavaScript truthiness skips the check for the value 0). -/
theorem c4_expiry_counterexample :
    downloadPolicyCheck { expiresAt := some 0 } 1 = none := rfl

/-- C5 (corrected): the decoder splits on `_`, takes the last three segments
as salt, iv and policy in that fixed order, and rejoins everything before
them as the original name — but the `.encrypted` it removes first is the
FIRST occurrence in the filename (JavaScript `replace` with a string
pattern), not the suffix the claim describes. -/
theorem c5_decoder_last_three (filename : List Char) :
    decodeMetadataFromFilename filename = decodeLastThreeRule filename :=
  decode_eq_lastThreeRule filename

/-- Counterexample to the claim as stated: on
`x.encrypted_QQ==_QQ==_e30=.encrypted` the suffix-stripping rule of the
claim decodes successfully, but the decoder returns `null` because it
removed the first `.encrypted` (inside the original name) and left the
suffix on the policy segment. -/
theorem c5_decoder_counterexample :
    decodeMetadataFromFilename "x.encrypted_QQ==_QQ==_e30=.encrypted".toList = none ∧
      (decodeViaSuffixRule "x.encrypted_QQ==_QQ==_e30=.encrypted".toList).isSome = true :=
  ⟨rfl, rfl⟩

/-- C6 (confirmed): decoding is total — it returns `null` (never crashes)
exactly when the filename has fewer than 4 `_`-separated segments, or when
the policy segment (the last segment after removing `.encrypted`) is not
valid base64 or does not decode to valid JSON. -/
theorem c6_malformed_name (filename : List Char) :
    decodeMetadataFromFilename filename = none ↔
      filename.count '_' + 1 < 4 ∨
        policySegDecodes ((splitOnChar '_' (removeFirstSub ENC filename)).getLast?.getD [])
          = false :=
  decode_none_iff filename

/-- C7 (confirmed over the ideal-AEAD model of Web Crypto): decryption with
a key derived from a different secret (same salt) fails, and decryption of a
ciphertext tampered in a single component (payload or authentication tag)
fails; both fail with the same unified error (`none` — the single thrown
message) and no plaintext bytes are returned in either case. -/
theorem c7_unified_tamper_wrong_key (data : List Nat) (s s' : List Char)
    (salt iv : List Nat) (c' : AesGcmSealed) (hs : s' ≠ s)
    (htamper : singleComponentTamper (encryptFile data s salt iv).1 c') :
    decryptFile (encryptFile data s salt iv).1 s' salt iv = none ∧
      decryptFile c' s salt iv = none := by
  constructor
  · show (if (deriveKey s salt = deriveKey s' salt ∧ iv = iv ∧ data = data : Prop)
        then some data else none) = none
    refine if_neg ?_
    rintro ⟨h1, -, -⟩
    injection h1 with h2 h3
    exact hs h2.symm
  · show (if (c'.tagKey = deriveKey s salt ∧ c'.tagNonce = iv ∧ c'.tagBody = c'.body : Prop)
        then some c'.body else none) = none
    refine if_neg ?_
    rintro ⟨h1, h2, h3⟩
    rcases htamper with ⟨hb, hk, hn, ht⟩ | ⟨hb, hnot⟩
    · exact hb (h3.symm.trans ht)
    · exact hnot ⟨h1, h2, h3.trans hb⟩

/-- Witness: wrong-key rejection and payload-tamper rejection at a concrete
payload, secret and ciphertext. -/
theorem c7_unified_tamper_wrong_key_witness :
    decryptFile (encryptFile [1, 2] "pw".toList [0] [7]).1 "pw2".toList [0] [7] = none ∧
      decryptFile ⟨[3, 2], deriveKey "pw".toList [0], [7], [1, 2]⟩ "pw".toList [0] [7]
        = none :=
  c7_unified_tamper_wrong_key [1, 2] "pw".toList "pw2".toList [0] [7]
    ⟨[3, 2], deriveKey "pw".toList [0], [7], [1, 2]⟩ (by decide)
    (Or.inl ⟨by decide, rfl, rfl, rfl⟩)

/-- C8 (corrected): the encoder produces exactly
`<originalName>_<b64(salt)>_<b64(iv)>_<b64(json(policies))>.encrypted` with
STANDARD base64 (`btoa`, alphabet with `+` and `/`), not the url-safe base64
the claim states, for every name, byte-valued salt and iv, and policies
whose country strings are plain JSON characters. -/
theorem c8_wire_format (name : List Char) (salt iv : List Nat) (p : Policies)
    (hsalt : ∀ b ∈ salt, b < 256) (hiv : ∀ b ∈ iv, b < 256) (hp : validPolicies p) :
    encodeMetadataInFilename name salt iv p = some (specEncodedNameStd name salt iv p) :=
  encode_eq_specStd name salt iv p hsalt hiv hp

/-- Witness: the wire format at a concrete metadata tuple. -/
theorem c8_wire_format_witness :
    encodeMetadataInFilename "a".toList [251] [0] {} =
      some (specEncodedNameStd "a".toList [251] [0] {}) :=
  c8_wire_format "a".toList [251] [0] {} (by decide) (by decide) (fun _ hcs => nomatch hcs)

/-- Counterexample to the claim as stated: for the salt byte 251 the encoder
emits the character `+` (standard base64), which url-safe base64 never
contains — so the claimed `base64url` wire format is wrong. -/
theorem c8_wire_format_counterexample :
    encodeMetadataInFilename "a".toList [251] [0] {} =
        some (specEncodedNameStd "a".toList [251] [0] {}) ∧
      '+' ∈ specEncodedNameStd "a".toList [251] [0] {} ∧
      '+' ∉ specEncodedNameUrlSafe "a".toList [251] [0] {} :=
  ⟨rfl, by decide, by decide⟩

/-- C9 (corrected): parsing a share URL built as
`<scheme>://<host>/f/<objectId>#key=<secret>` returns exactly that objectId
and secret — provided the components avoid the characters the URL machinery
transforms: no `:`/`#` in the scheme, no `/`, `\`, `#` in the host, no `/`,
`\`, `#`, `?` and nothing of the path percent-encode set in the objectId,
and no `&`, `#`, `+`, `%` in the secret (a secret containing `&` is
truncated at it and `+`/`%` are form-urldecoded, because the fragment is
parsed as `URLSearchParams`); and for every URL whose last path segment is
empty or whose fragment has no `key` entry, the parser returns `null`. -/
theorem c9_share_locator_roundtrip (scheme host driveFileId humanKey : List Char)
    (hscheme : ∀ c ∈ scheme, c ≠ ':' ∧ c ≠ '#')
    (hhost : ∀ c ∈ host, c ≠ '/' ∧ c ≠ '\\' ∧ c ≠ '#')
    (hid : ∀ c ∈ driveFileId,
      c ≠ '/' ∧ c ≠ '\\' ∧ c ≠ '#' ∧ c ≠ '?' ∧ pathEncodeSet c = false)
    (hidne : driveFileId ≠ [])
    (hkey : ∀ c ∈ humanKey, c ≠ '&' ∧ c ≠ '#' ∧ c ≠ '+' ∧ c ≠ '%')
    (hkeyne : humanKey ≠ []) :
    parseShareUrl (buildShareUrl (scheme ++ "://".toList ++ host) driveFileId humanKey) =
      some (driveFileId, humanKey) ∧
      ∀ url, ((splitOnChar '/' ((urlPathnameOf url).getD [])).getLast?.getD [] = [] ∨
          queryGet (urlFragmentOf url) "key".toList = none) →
        parseShareUrl url = none :=
  ⟨parseShareUrl_build scheme host driveFileId humanKey hscheme hhost hid hidne hkey hkeyne,
   fun url h => parseShareUrl_none url h⟩

/-- Witness: the locator round trip at a concrete origin, object id and
generated-key-shaped secret (plus the null cases for every URL). -/
theorem c9_share_locator_roundtrip_witness :
    (parseShareUrl (buildShareUrl ("https".toList ++ "://".toList ++ "app.example".toList)
        "abc".toList "iron-wolf-echo".toList) =
      some ("abc".toList, "iron-wolf-echo".toList) ∧
      ∀ url, ((splitOnChar '/' ((urlPathnameOf url).getD [])).getLast?.getD [] = [] ∨
          queryGet (urlFragmentOf url) "key".toList = none) →
        parseShareUrl url = none) :=
  c9_share_locator_roundtrip "https".toList "app.example".toList "abc".toList
    "iron-wolf-echo".toList (by decide) (by decide) (by decide) (by decide) (by decide)
    (by decide)

/-- Counterexample to the claim as stated: for the non-empty secret `a&b`
the parser returns the truncated secret `a`, and for the non-empty secret
`a+b` it returns the form-urldecoded `a b` — not the secrets the locators
were built with. -/
theorem c9_share_locator_counterexample :
    parseShareUrl (buildShareUrl "https://app.example".toList "abc".toList "a&b".toList) =
        some ("abc".toList, "a".toList) ∧
      parseShareUrl (buildShareUrl "https://app.example".toList "abc".toList "a+b".toList) =
        some ("abc".toList, "a b".toList) :=
  ⟨rfl, rfl⟩

/-- C10 (confirmed): every generated human key has the form
`<adjective>-<noun>-<word>` with the components drawn from the three fixed
16-element word lists; the 16×16×16 draws generate exactly 4096 distinct
keys; and every generated key is at least 5 characters long. -/
theorem c10_human_key_space :
    (∀ i j k : Fin 16, ∃ a ∈ ADJECTIVES, ∃ n ∈ NOUNS, ∃ w ∈ WORDS,
        generateHumanKey i j k = a ++ '-' :: n ++ '-' :: w) ∧
      ADJECTIVES.length = 16 ∧ NOUNS.length = 16 ∧ WORDS.length = 16 ∧
      (Finset.image (fun t : Fin 16 × Fin 16 × Fin 16 =>
          generateHumanKey t.1 t.2.1 t.2.2) Finset.univ).card = 4096 ∧
      ∀ i j k : Fin 16, 5 ≤ (generateHumanKey i j k).length :=
  ⟨generateHumanKey_shape, rfl, rfl, rfl, humanKey_card, generateHumanKey_length⟩

end Keyvault
